import Mathlib

/-
  Verification development for the tactical-combat core of the board-war
  application (hex board, cost-bounded pathfinding, deployment mirroring,
  combat resolution, victory evaluation).

  The definitions below are a shallow embedding of the TypeScript source in
  `src/app/board/page.tsx` (together with the shared type declarations in
  `src/shared/*.ts`).  Pure functions of the source are translated directly;
  the React state of the board page is modelled as an explicit `ClientState`
  record and each event handler as a state-transition function.  The backend
  application of a MOVE / ATTACK / END_TURN action (the server is not part of
  this repository) is modelled from the spec: MOVE sets the acted unit's
  position to the requested coordinate, ATTACK subtracts the client-computed
  `damageApplied` from the defender's hit points, END_TURN hands control to
  the side reported by the authoritative snapshot.
-/

namespace BoardWar

/-- Axial hex coordinate, `HexCoords` of `src/shared/board.ts`.  Coordinates
are used as integers throughout the source. -/
structure HexCoords where
  q : Int
  r : Int
deriving DecidableEq, Repr

/-- A board tile, `Tile` of `src/shared/board.ts` (the purely visual
`terrain` tag is omitted: no rule of the engine reads it). -/
structure Tile where
  coords : HexCoords
  passable : Bool
  movementCost : Nat
deriving DecidableEq, Repr

/-- The board: a list of tiles, `Board` of `src/shared/board.ts`. -/
structure Board where
  tiles : List Tile
deriving DecidableEq, Repr

/-- Lookup of a tile by coordinate.  The source builds `tileByCoord` by a
`forEach`/`Map.set` pass over `board.tiles`, so for a duplicated coordinate
the LAST tile of the list wins; searching the reversed list reproduces that. -/
def tileAt (b : Board) (c : HexCoords) : Option Tile :=
  b.tiles.reverse.find? (fun t => decide (t.coords = c))

/-- Coordinate translation. -/
def hexAdd (a d : HexCoords) : HexCoords :=
  ⟨a.q + d.q, a.r + d.r⟩

/-- The four axial directions used by `getNeighbors` in the source (the
reduced, non-six-direction neighbour set). -/
def dirs : List HexCoords :=
  [⟨1, 0⟩, ⟨-1, 0⟩, ⟨0, 1⟩, ⟨0, -1⟩]

/-- `getNeighbors` of the source: the four axial translates that carry a
board tile. -/
def getNeighbors (b : Board) (c : HexCoords) : List HexCoords :=
  (dirs.map (hexAdd c)).filter (fun n => (tileAt b n).isSome)

/-- The Manhattan distance `|Δq| + |Δr|` used both as the pathfinding
heuristic and as the attack-range metric (`distance` in the source). -/
def manhattan (a b : HexCoords) : Nat :=
  (a.q - b.q).natAbs + (a.r - b.r).natAbs

/-- Movement cost of entering a coordinate (0 for a missing tile; the search
only ever charges it for coordinates that carry a tile). -/
def stepCost (b : Board) (c : HexCoords) : Nat :=
  match tileAt b c with
  | some t => t.movementCost
  | none => 0

/-- Whether the tile at `c` exists and is passable. -/
def passableAt (b : Board) (c : HexCoords) : Bool :=
  match tileAt b c with
  | some t => t.passable
  | none => false

section AssocList

variable {κ : Type} [DecidableEq κ] {α : Type}

/-- Association-list lookup, modelling `Map.get`. -/
def alookup (m : List (κ × α)) (k : κ) : Option α :=
  match m with
  | [] => none
  | p :: rest => if p.1 = k then some p.2 else alookup rest k

/-- Association-list update, modelling `Map.set`: an existing key keeps its
position in iteration order, a new key is appended at the end (JavaScript
`Map` insertion-order semantics). -/
def aupd (m : List (κ × α)) (k : κ) (v : α) : List (κ × α) :=
  match m with
  | [] => [(k, v)]
  | p :: rest => if p.1 = k then (k, v) :: rest else p :: aupd rest k v

theorem alookup_aupd (m : List (κ × α)) (k : κ) (v : α) (k' : κ) :
    alookup (aupd m k v) k' = if k = k' then some v else alookup m k' := by
  induction m with
  | nil => simp [aupd, alookup]
  | cons p rest ih =>
      by_cases hpk : p.1 = k
      · by_cases hkk : k = k'
        · simp [aupd, alookup, hpk, hkk]
        · have hpk' : ¬ p.1 = k' := fun h => hkk (hpk ▸ h)
          simp [aupd, alookup, hpk, hkk, hpk']
      · by_cases hpk' : p.1 = k'
        · have hkk : ¬ k = k' := fun h => hpk (h ▸ hpk')
          have hkk' : ¬ k' = k := fun h => hkk h.symm
          simp [aupd, alookup, hpk, hkk, hpk', hkk']
        · simp [aupd, alookup, hpk, hpk', ih]

theorem keys_aupd_mem (m : List (κ × α)) (k : κ) (v : α)
    (h : k ∈ m.map Prod.fst) : (aupd m k v).map Prod.fst = m.map Prod.fst := by
  induction m with
  | nil => simp at h
  | cons p rest ih =>
      by_cases hpk : p.1 = k
      · simp [aupd, hpk]
      · have hk : k ∈ rest.map Prod.fst := by
          simp only [List.map_cons, List.mem_cons] at h
          exact h.resolve_left (fun h' => hpk h'.symm)
        simp [aupd, hpk, ih hk]

theorem keys_aupd_not_mem (m : List (κ × α)) (k : κ) (v : α)
    (h : k ∉ m.map Prod.fst) :
    (aupd m k v).map Prod.fst = m.map Prod.fst ++ [k] := by
  induction m with
  | nil => simp [aupd]
  | cons p rest ih =>
      have hpk : ¬ p.1 = k := by
        intro hpk; exact h (by simp [hpk])
      have hk : k ∉ rest.map Prod.fst := by
        intro hk; exact h (by simp [hk])
      simp [aupd, hpk, ih hk]

theorem alookup_mem {m : List (κ × α)} {k : κ} {v : α}
    (h : alookup m k = some v) : (k, v) ∈ m := by
  induction m with
  | nil => simp [alookup] at h
  | cons p rest ih =>
      by_cases hpk : p.1 = k
      · simp only [alookup, hpk, if_pos, Option.some.injEq] at h
        cases p with
        | mk pk pv =>
            simp only at hpk
            subst hpk
            subst h
            exact List.mem_cons_self _ _
      · simp only [alookup, hpk, if_neg, not_false_iff] at h
        exact List.mem_cons_of_mem _ (ih h)

theorem mem_alookup {m : List (κ × α)} (hnd : (m.map Prod.fst).Nodup)
    {k : κ} {v : α} (h : (k, v) ∈ m) : alookup m k = some v := by
  induction m with
  | nil => simp at h
  | cons p rest ih =>
      rcases List.mem_cons.mp h with h | h
      · simp [alookup, ← h]
      · have hk : p.1 ≠ k := by
          intro hpk
          have hmem : k ∈ rest.map Prod.fst := List.mem_map.mpr ⟨(k, v), h, rfl⟩
          simp only [List.map_cons, List.nodup_cons] at hnd
          exact hnd.1 (hpk ▸ hmem)
        have hnd' : (rest.map Prod.fst).Nodup := by
          simp only [List.map_cons, List.nodup_cons] at hnd
          exact hnd.2
        simp [alookup, hk, ih hnd' h]

theorem alookup_isSome_iff_mem {m : List (κ × α)} {k : κ} :
    (alookup m k).isSome ↔ k ∈ m.map Prod.fst := by
  induction m with
  | nil => simp [alookup]
  | cons p rest ih =>
      by_cases hpk : p.1 = k
      · simp [alookup, hpk]
      · have hkp : ¬ k = p.1 := fun h => hpk h.symm
        simp [alookup, hpk, hkp, ih]

theorem alookup_eq_none_iff {m : List (κ × α)} {k : κ} :
    alookup m k = none ↔ k ∉ m.map Prod.fst := by
  rw [← alookup_isSome_iff_mem]
  cases alookup m k <;> simp

theorem mem_aupd {m : List (κ × α)} (hnd : (m.map Prod.fst).Nodup)
    {k : κ} {v : α} {p : κ × α} (h : p ∈ aupd m k v) :
    p = (k, v) ∨ (p ∈ m ∧ p.1 ≠ k) := by
  induction m with
  | nil => simp [aupd] at h; left; exact h
  | cons q rest ih =>
      simp only [List.map_cons, List.nodup_cons] at hnd
      by_cases hqk : q.1 = k
      · simp only [aupd, hqk, if_pos] at h
        rcases List.mem_cons.mp h with h | h
        · left; exact h
        · right
          refine ⟨List.mem_cons_of_mem _ h, ?_⟩
          intro hpk
          exact hnd.1 (hqk ▸ hpk ▸ List.mem_map.mpr ⟨p, h, rfl⟩)
      · simp only [aupd, hqk, if_neg, not_false_iff] at h
        rcases List.mem_cons.mp h with h | h
        · right
          exact ⟨h ▸ List.mem_cons_self q rest, h ▸ hqk⟩
        · rcases ih hnd.2 h with h' | h'
          · left; exact h'
          · right; exact ⟨List.mem_cons_of_mem _ h'.1, h'.2⟩

theorem nodup_keys_aupd {m : List (κ × α)} (hnd : (m.map Prod.fst).Nodup)
    (k : κ) (v : α) : ((aupd m k v).map Prod.fst).Nodup := by
  by_cases h : k ∈ m.map Prod.fst
  · rw [keys_aupd_mem m k v h]; exact hnd
  · rw [keys_aupd_not_mem m k v h]
    simpa using List.Nodup.append hnd (by simp) (by simpa using h)

end AssocList

/-- A frontier node of the search: coordinate and accumulated cost (the
source also stores the string key; the coordinate plays that role here). -/
abbrev PathNode := HexCoords × Nat

/-- The mutable state of `findPath`'s search: the `dist` map, the `prev`
parent map, and the frontier queue. -/
structure SearchState where
  dist : List (HexCoords × Nat)
  prev : List (HexCoords × Option HexCoords)
  queue : List PathNode
deriving Repr

/-- `popSmallest` of the source sorts the queue by cost (a stable sort) and
shifts the head: that extracts the first node of minimal cost and keeps the
relative order of nodes of equal cost, which is what this recursion does. -/
def popSmallest (q : List PathNode) : Option (PathNode × List PathNode) :=
  match q with
  | [] => none
  | n :: rest =>
      match popSmallest rest with
      | none => some (n, [])
      | some (m, rest') => if n.2 ≤ m.2 then some (n, rest) else some (m, n :: rest')

/-- One relaxation of neighbour `n` from the popped node `cur`, the body of
the `for (const n of getNeighbors…)` loop of `findPath`. -/
def relax (b : Board) (blocked : List HexCoords) (maxCost : Nat)
    (cur : PathNode) (st : SearchState) (n : HexCoords) : SearchState :=
  if n ∈ blocked then st
  else
    match tileAt b n with
    | none => st
    | some tile =>
      if tile.passable then
        if maxCost < cur.2 + tile.movementCost then st
        else
          match alookup st.dist n with
          | some known =>
              if cur.2 + tile.movementCost < known then
                ⟨aupd st.dist n (cur.2 + tile.movementCost),
                 aupd st.prev n (some cur.1),
                 st.queue ++ [(n, cur.2 + tile.movementCost)]⟩
              else st
          | none =>
              ⟨aupd st.dist n (cur.2 + tile.movementCost),
               aupd st.prev n (some cur.1),
               st.queue ++ [(n, cur.2 + tile.movementCost)]⟩
    else st

/-- One iteration of `findPath`'s main `while (queue.length)` loop. -/
def stepSearch (b : Board) (blocked : List HexCoords) (maxCost : Nat)
    (st : SearchState) : SearchState :=
  match popSmallest st.queue with
  | none => st
  | some (cur, rest) =>
      (getNeighbors b cur.1).foldl (relax b blocked maxCost cur) ⟨st.dist, st.prev, rest⟩

/-- The search loop with explicit fuel; `searchMeasure` below bounds the
number of iterations, so run with that much fuel the loop always drains the
queue, exactly as the source's unbounded `while` does. -/
def searchLoop (b : Board) (blocked : List HexCoords) (maxCost : Nat) :
    Nat → SearchState → SearchState
  | 0, st => st
  | fuel + 1, st =>
      if st.queue = [] then st
      else searchLoop b blocked maxCost fuel (stepSearch b blocked maxCost st)

/-- Initial search state: `dist = {start: 0}`, `prev = {start: null}`,
`queue = [{start, 0}]`. -/
def initState (start : HexCoords) : SearchState :=
  ⟨[(start, 0)], [(start, none)], [(start, 0)]⟩

/-- Sum of the recorded distances, part of the termination measure. -/
def distSum (m : List (HexCoords × Nat)) : Nat :=
  (m.map Prod.snd).sum

/-- Termination measure of the search loop: every iteration pops one node
and every push either claims a fresh board key or strictly lowers a
recorded distance, so this quantity strictly decreases. -/
def searchMeasure (b : Board) (maxCost : Nat) (st : SearchState) : Nat :=
  st.queue.length + (maxCost + 1) * (b.tiles.length + 1 - st.dist.length) + distSum st.dist

/-- The state of the search after the queue has drained. -/
def finalState (b : Board) (start : HexCoords) (blocked : List HexCoords)
    (maxCost : Nat) : SearchState :=
  searchLoop b blocked maxCost (searchMeasure b maxCost (initState start)) (initState start)

/-- The destination-selection pass (`dist.forEach` of the source): prefer the
target when its key is recorded, otherwise keep the entry of least Manhattan
distance to the target, ties broken by lower accumulated cost, earlier
insertion winning remaining ties. -/
def chooseStep (target : HexCoords) (targetReachable : Bool) (maxCost : Nat)
    (acc : Option (HexCoords × Nat)) (p : HexCoords × Nat) :
    Option (HexCoords × Nat) :=
  if maxCost < p.2 then acc
  else if p.1 = target then some p
  else if targetReachable then acc
  else
    match acc with
    | none => some p
    | some bp =>
        if manhattan p.1 target < manhattan bp.1 target ∨
           (manhattan p.1 target = manhattan bp.1 target ∧ p.2 < bp.2) then
          some p
        else acc

def chooseBest (target : HexCoords) (targetReachable : Bool) (maxCost : Nat)
    (m : List (HexCoords × Nat)) : Option (HexCoords × Nat) :=
  m.foldl (chooseStep target targetReachable maxCost) none

/-- Parent of `k` in the reconstruction walk: `prev.get(k) ?? null`. -/
def nextOf (prev : List (HexCoords × Option HexCoords)) (k : HexCoords) :
    Option HexCoords :=
  match alookup prev k with
  | some op => op
  | none => none

/-- Path reconstruction (`while (k) { path.push(k); k = prev.get(k) ?? null }`),
producing the destination-to-start list; the parent chain strictly lowers the
recorded distance, so `prev.length` fuel is always enough. -/
def buildRev (prev : List (HexCoords × Option HexCoords)) :
    Nat → Option HexCoords → List HexCoords
  | 0, _ => []
  | _ + 1, none => []
  | fuel + 1, some k => k :: buildRev prev fuel (nextOf prev k)

/-- Result record of `findPath`. -/
structure PathResult where
  cost : Nat
  path : List HexCoords
deriving DecidableEq, Repr

/-- `findPath` of the source: cost-bounded uniform-cost search from `start`,
followed by destination selection and parent-chain reconstruction. -/
def findPath (b : Board) (start target : HexCoords) (blocked : List HexCoords)
    (maxCost : Nat) : Option PathResult :=
  if (finalState b start blocked maxCost).dist.isEmpty then none
  else
    match chooseBest target
        (alookup (finalState b start blocked maxCost).dist target).isSome maxCost
        (finalState b start blocked maxCost).dist with
    | none => none
    | some bp =>
        some ⟨bp.2, (buildRev (finalState b start blocked maxCost).prev
          (finalState b start blocked maxCost).prev.length (some bp.1)).reverse⟩

/-- Cumulative movement cost of a path: the cost of every tile entered along
it, i.e. of every coordinate except the first. -/
def pathCost (b : Board) (path : List HexCoords) : Nat :=
  match path with
  | [] => 0
  | _ :: rest => (rest.map (stepCost b)).sum

/-- Reachability within the movement budget: the reflexive-transitive closure
of single neighbour steps onto unblocked passable tiles, every prefix staying
within `maxCost`.  `Reach b blocked maxCost start v c` holds when some legal
path of accumulated cost `c` leads from `start` to `v`. -/
inductive Reach (b : Board) (blocked : List HexCoords) (maxCost : Nat)
    (start : HexCoords) : HexCoords → Nat → Prop
  | refl : Reach b blocked maxCost start start 0
  | step {u v : HexCoords} {c : Nat} (h : Reach b blocked maxCost start u c)
      (hn : v ∈ getNeighbors b u) (hb : v ∉ blocked)
      (hp : passableAt b v = true) (hc : c + stepCost b v ≤ maxCost) :
      Reach b blocked maxCost start v (c + stepCost b v)

/-! ### Basic facts about the board helpers -/

theorem tileAt_mem {b : Board} {c : HexCoords} {t : Tile}
    (h : tileAt b c = some t) : t ∈ b.tiles ∧ t.coords = c := by
  unfold tileAt at h
  refine ⟨List.mem_reverse.mp (List.mem_of_find?_eq_some h), ?_⟩
  have := List.find?_some h
  simpa using this

theorem mem_getNeighbors {b : Board} {c n : HexCoords}
    (h : n ∈ getNeighbors b c) :
    (∃ d ∈ dirs, n = hexAdd c d) ∧ (tileAt b n).isSome := by
  unfold getNeighbors at h
  have h' := List.mem_filter.mp h
  exact ⟨List.mem_map.mp h'.1 |>.imp (fun d hd => ⟨hd.1, hd.2.symm⟩), by simpa using h'.2⟩

theorem getNeighbors_ne {b : Board} {c n : HexCoords}
    (h : n ∈ getNeighbors b c) : n ≠ c := by
  obtain ⟨⟨d, hd, hn⟩, -⟩ := mem_getNeighbors h
  subst hn
  intro hcon
  have hq := congrArg HexCoords.q hcon
  have hr := congrArg HexCoords.r hcon
  simp only [dirs, List.mem_cons, List.not_mem_nil, or_false] at hd
  rcases hd with h | h | h | h <;> subst h <;>
    simp only [hexAdd] at hq hr <;> omega

theorem getNeighbors_mem_coords {b : Board} {c n : HexCoords}
    (h : n ∈ getNeighbors b c) : n ∈ b.tiles.map Tile.coords := by
  obtain ⟨-, hsome⟩ := mem_getNeighbors h
  obtain ⟨t, ht⟩ := Option.isSome_iff_exists.mp hsome
  obtain ⟨hmem, hc⟩ := tileAt_mem ht
  exact List.mem_map.mpr ⟨t, hmem, hc⟩

theorem passableAt_iff {b : Board} {c : HexCoords} :
    passableAt b c = true ↔ ∃ t, tileAt b c = some t ∧ t.passable = true := by
  unfold passableAt
  cases h : tileAt b c <;> simp

theorem stepCost_of_tileAt {b : Board} {c : HexCoords} {t : Tile}
    (h : tileAt b c = some t) : stepCost b c = t.movementCost := by
  unfold stepCost
  rw [h]

/-! ### Facts about `popSmallest` -/

theorem popSmallest_eq_none_iff {q : List PathNode} :
    popSmallest q = none ↔ q = [] := by
  cases q with
  | nil => simp [popSmallest]
  | cons n rest =>
      simp only [popSmallest]
      constructor
      · intro h
        cases hr : popSmallest rest with
        | none => simp [hr] at h
        | some p =>
            rcases p with ⟨m, rest'⟩
            by_cases hle : n.2 ≤ m.2 <;> simp [hr, hle] at h
      · intro h
        exact absurd h (List.cons_ne_nil n rest)

theorem popSmallest_perm {q : List PathNode} {n : PathNode} {rest : List PathNode}
    (h : popSmallest q = some (n, rest)) : q.Perm (n :: rest) := by
  induction q generalizing n rest with
  | nil => simp [popSmallest] at h
  | cons x xs ih =>
      simp only [popSmallest] at h
      cases hr : popSmallest xs with
      | none =>
          have hxs : xs = [] := popSmallest_eq_none_iff.mp hr
          subst hxs
          simp [hr] at h
          obtain ⟨h1, h2⟩ := h
          subst h1; subst h2
          exact List.Perm.refl _
      | some p =>
          rcases p with ⟨m, rest'⟩
          by_cases hle : x.2 ≤ m.2
          · simp [hr, hle] at h
            obtain ⟨h1, h2⟩ := h
            subst h1; subst h2
            exact List.Perm.refl _
          · simp [hr, hle] at h
            obtain ⟨h1, h2⟩ := h
            subst h1; subst h2
            exact ((ih hr).cons x).trans (List.Perm.swap m x rest')

/-! ### The search invariant -/

/-- A coordinate the relaxation step will accept: not blocked, with a
passable tile. -/
def validKey (b : Board) (blocked : List HexCoords) (c : HexCoords) : Prop :=
  c ∉ blocked ∧ passableAt b c = true

/-- All edges out of `u` (at recorded distance `du`) are relaxed in `dist`:
every acceptable neighbour within the budget already carries a distance no
larger than `du` plus the entry cost. -/
def relaxedAt (b : Board) (blocked : List HexCoords) (maxCost : Nat)
    (dist : List (HexCoords × Nat)) (u : HexCoords) (du : Nat) : Prop :=
  ∀ v ∈ getNeighbors b u, validKey b blocked v → du + stepCost b v ≤ maxCost →
    ∃ dv, alookup dist v = some dv ∧ dv ≤ du + stepCost b v

/-- The data-structure invariant of the search loop (everything except the
closure property, which needs the queue as a whole). -/
structure SearchInvCore (b : Board) (blocked : List HexCoords) (maxCost : Nat)
    (start : HexCoords) (st : SearchState) : Prop where
  nodupKeys : (st.dist.map Prod.fst).Nodup
  keysSub : ∀ k ∈ st.dist.map Prod.fst, k = start ∨ k ∈ b.tiles.map Tile.coords
  startZero : alookup st.dist start = some 0
  distLe : ∀ p ∈ st.dist, p.2 ≤ maxCost
  validMem : ∀ p ∈ st.dist, p.1 ≠ start → validKey b blocked p.1
  prevKeys : st.prev.map Prod.fst = st.dist.map Prod.fst
  prevStart : alookup st.prev start = some none
  prevStep : ∀ k ∈ st.dist.map Prod.fst, k ≠ start →
    ∃ pk dk dp, alookup st.prev k = some (some pk) ∧
      alookup st.dist k = some dk ∧ alookup st.dist pk = some dp ∧
      k ∈ getNeighbors b pk ∧ dp + stepCost b k ≤ dk
  soundR : ∀ p ∈ st.dist, ∃ c ≤ p.2, Reach b blocked maxCost start p.1 c
  queueDist : ∀ n ∈ st.queue, ∃ d, alookup st.dist n.1 = some d ∧ d ≤ n.2

/-- The full invariant: core plus the closure property — every recorded key
either still has a faithful queue node or has all its outgoing edges
relaxed. -/
structure SearchInv (b : Board) (blocked : List HexCoords) (maxCost : Nat)
    (start : HexCoords) (st : SearchState) extends
      SearchInvCore b blocked maxCost start st : Prop where
  closure : ∀ p ∈ st.dist,
    ((p.1, p.2) ∈ st.queue) ∨ relaxedAt b blocked maxCost st.dist p.1 p.2

theorem mem_keys_aupd {κ : Type} [DecidableEq κ] {α : Type}
    {m : List (κ × α)} {k0 : κ} {v : α} {k : κ}
    (h : k ∈ (aupd m k0 v).map Prod.fst) : k ∈ m.map Prod.fst ∨ k = k0 := by
  by_cases hmem : k0 ∈ m.map Prod.fst
  · rw [keys_aupd_mem m k0 v hmem] at h
    exact Or.inl h
  · rw [keys_aupd_not_mem m k0 v hmem] at h
    simpa using List.mem_append.mp h

theorem keys_aupd_congr {κ : Type} [DecidableEq κ] {α β : Type}
    {m1 : List (κ × α)} {m2 : List (κ × β)} (h : m1.map Prod.fst = m2.map Prod.fst)
    (k : κ) (v : α) (w : β) :
    (aupd m1 k v).map Prod.fst = (aupd m2 k w).map Prod.fst := by
  by_cases hmem : k ∈ m1.map Prod.fst
  · rw [keys_aupd_mem m1 k v hmem, keys_aupd_mem m2 k w (h ▸ hmem), h]
  · rw [keys_aupd_not_mem m1 k v hmem, keys_aupd_not_mem m2 k w (h ▸ hmem), h]

theorem distSum_aupd_not_mem {m : List (HexCoords × Nat)} {k : HexCoords}
    (h : k ∉ m.map Prod.fst) (v : Nat) :
    distSum (aupd m k v) = distSum m + v := by
  induction m with
  | nil => simp [aupd, distSum]
  | cons p rest ih =>
      have hpk : ¬ p.1 = k := fun hpk => h (by simp [hpk])
      have hk : k ∉ rest.map Prod.fst := fun hk => h (by simp [hk])
      simp only [aupd, hpk, if_neg, not_false_iff, distSum, List.map_cons, List.sum_cons]
      have := ih hk
      simp only [distSum] at this
      omega

theorem distSum_aupd_mem {m : List (HexCoords × Nat)} {k : HexCoords} {known : Nat}
    (h : alookup m k = some known) (v : Nat) :
    distSum (aupd m k v) + known = distSum m + v := by
  induction m with
  | nil => simp [alookup] at h
  | cons p rest ih =>
      by_cases hpk : p.1 = k
      · simp only [alookup, hpk, if_pos, Option.some.injEq] at h
        simp only [aupd, hpk, if_pos, distSum, List.map_cons, List.sum_cons]
        omega
      · simp only [alookup, hpk, if_neg, not_false_iff] at h
        simp only [aupd, hpk, if_neg, not_false_iff, distSum, List.map_cons, List.sum_cons]
        have := ih h
        simp only [distSum] at this
        omega

theorem nodup_sub_length {keys : List HexCoords} {start : HexCoords}
    {coords : List HexCoords}
    (hnd : keys.Nodup) (hsub : ∀ k ∈ keys, k = start ∨ k ∈ coords) :
    keys.length ≤ coords.length + 1 := by
  classical
  have h1 : keys.toFinset.card = keys.length := List.toFinset_card_of_nodup hnd
  have h2 : keys.toFinset ⊆ insert start coords.toFinset := by
    intro k hk
    rcases hsub k (List.mem_toFinset.mp hk) with h | h
    · simp [h]
    · exact Finset.mem_insert_of_mem (List.mem_toFinset.mpr h)
  have h3 := Finset.card_le_card h2
  have h4 : (insert start coords.toFinset).card ≤ coords.toFinset.card + 1 :=
    Finset.card_insert_le _ _
  have h5 : coords.toFinset.card ≤ coords.length := coords.toFinset_card_le
  omega

theorem relaxedAt_mono {b : Board} {blocked : List HexCoords} {maxCost : Nat}
    {d1 d2 : List (HexCoords × Nat)} {u : HexCoords} {du : Nat}
    (hmono : ∀ k d, alookup d1 k = some d → ∃ d', alookup d2 k = some d' ∧ d' ≤ d)
    (h : relaxedAt b blocked maxCost d1 u du) :
    relaxedAt b blocked maxCost d2 u du := by
  intro v hv hval hbound
  obtain ⟨dv, hdv, hle⟩ := h v hv hval hbound
  obtain ⟨dv', hdv', hle'⟩ := hmono v dv hdv
  exact ⟨dv', hdv', hle'.trans hle⟩

/-! ### Behaviour of one relaxation -/

theorem relax_cases (b : Board) (bl : List HexCoords) (mc : Nat)
    (cur : PathNode) (st : SearchState) (n : HexCoords) :
    relax b bl mc cur st n = st ∨
    ∃ t : Tile, tileAt b n = some t ∧ n ∉ bl ∧ t.passable = true ∧
      cur.2 + t.movementCost ≤ mc ∧
      (∀ known, alookup st.dist n = some known → cur.2 + t.movementCost < known) ∧
      relax b bl mc cur st n =
        ⟨aupd st.dist n (cur.2 + t.movementCost),
         aupd st.prev n (some cur.1),
         st.queue ++ [(n, cur.2 + t.movementCost)]⟩ := by
  unfold relax
  by_cases hb : n ∈ bl
  · left; simp [hb]
  cases ht : tileAt b n with
  | none => left; simp [hb, ht]
  | some t =>
      by_cases hp : t.passable = true
      · by_cases hm : mc < cur.2 + t.movementCost
        · left; simp [hb, ht, hp, hm]
        · cases hk : alookup st.dist n with
          | some known =>
              by_cases hlt : cur.2 + t.movementCost < known
              · right
                refine ⟨t, rfl, hb, hp, Nat.le_of_not_lt hm, ?_, ?_⟩
                · intro k hk'
                  injection hk' with h2
                  omega
                · simp [hb, hp, hm, hlt]
              · left; simp [hb, hp, hm, hlt]
          | none =>
              right
              refine ⟨t, rfl, hb, hp, Nat.le_of_not_lt hm, ?_, ?_⟩
              · intro k hk'
                exact absurd hk' (by simp)
              · simp [hb, hp, hm]
      · left
        have hp' : t.passable = false := by
          cases hpp : t.passable
          · rfl
          · exact absurd hpp hp
        simp [hb, ht, hp']

theorem relax_dist_ne {b : Board} {bl : List HexCoords} {mc : Nat}
    {cur : PathNode} {st : SearchState} {n : HexCoords} {k : HexCoords}
    (hk : k ≠ n) :
    alookup (relax b bl mc cur st n).dist k = alookup st.dist k := by
  rcases relax_cases b bl mc cur st n with heq | ⟨t, ht, hb, hp, hbd, hbt, heq⟩
  · rw [heq]
  · rw [heq]
    simp only
    rw [alookup_aupd]
    have hnk : ¬ n = k := fun h => hk h.symm
    simp [hnk]

theorem relax_dist_mono {b : Board} {bl : List HexCoords} {mc : Nat}
    {cur : PathNode} {st : SearchState} {n : HexCoords} {k : HexCoords} {d : Nat}
    (h : alookup st.dist k = some d) :
    ∃ d', alookup (relax b bl mc cur st n).dist k = some d' ∧ d' ≤ d := by
  rcases relax_cases b bl mc cur st n with heq | ⟨t, ht, hb, hp, hbd, hbt, heq⟩
  · rw [heq]; exact ⟨d, h, le_rfl⟩
  · rw [heq]
    simp only
    rw [alookup_aupd]
    by_cases hkn : n = k
    · subst hkn
      exact ⟨_, by simp, le_of_lt (hbt d h)⟩
    · simp only [hkn, if_false]
      exact ⟨d, h, le_rfl⟩

theorem relax_queue_sub {b : Board} {bl : List HexCoords} {mc : Nat}
    {cur : PathNode} {st : SearchState} {n : HexCoords} {x : PathNode}
    (h : x ∈ st.queue) : x ∈ (relax b bl mc cur st n).queue := by
  rcases relax_cases b bl mc cur st n with heq | ⟨t, ht, hb, hp, hbd, hbt, heq⟩
  · rw [heq]; exact h
  · rw [heq]
    exact List.mem_append_left _ h

theorem relax_establishes {b : Board} {bl : List HexCoords} {mc : Nat}
    {cur : PathNode} {st : SearchState} {n : HexCoords}
    (hval : validKey b bl n) (hbound : cur.2 + stepCost b n ≤ mc) :
    ∃ dv, alookup (relax b bl mc cur st n).dist n = some dv ∧
      dv ≤ cur.2 + stepCost b n := by
  obtain ⟨hb, hpass⟩ := hval
  obtain ⟨t, ht, hp⟩ := passableAt_iff.mp hpass
  have hstep : stepCost b n = t.movementCost := stepCost_of_tileAt ht
  rw [hstep] at hbound
  have hm : ¬ mc < cur.2 + t.movementCost := Nat.not_lt.mpr hbound
  unfold relax
  rw [ht]
  simp only [hb, if_neg, not_false_iff, hp, if_pos, hm]
  cases hk : alookup st.dist n with
  | some known =>
      by_cases hlt : cur.2 + t.movementCost < known
      · simp only [hlt, if_pos]
        refine ⟨cur.2 + t.movementCost, ?_, by omega⟩
        rw [alookup_aupd]; simp [hstep]
      · simp only [hlt, if_neg, not_false_iff]
        exact ⟨known, hk, by omega⟩
  | none =>
      refine ⟨cur.2 + t.movementCost, ?_, by omega⟩
      rw [alookup_aupd]; simp [hstep]

theorem relax_core {b : Board} {bl : List HexCoords} {mc : Nat} {start : HexCoords}
    {cur : PathNode} {st : SearchState} {n : HexCoords}
    (hc : SearchInvCore b bl mc start st)
    (hn : n ∈ getNeighbors b cur.1)
    (hcur : ∃ d, alookup st.dist cur.1 = some d ∧ d ≤ cur.2) :
    SearchInvCore b bl mc start (relax b bl mc cur st n) := by
  rcases relax_cases b bl mc cur st n with heq | ⟨t, ht, hb, hp, hbound, hbetter, heq⟩
  · rw [heq]; exact hc
  · rw [heq]
    obtain ⟨d, hd, hdle⟩ := hcur
    have hstep : stepCost b n = t.movementCost := stepCost_of_tileAt ht
    have hne_start : n ≠ start := by
      intro h
      subst h
      exact absurd (hbetter 0 hc.startZero) (by omega)
    have hncur : n ≠ cur.1 := getNeighbors_ne hn
    constructor
    · exact nodup_keys_aupd hc.nodupKeys _ _
    · intro k hk
      rcases mem_keys_aupd hk with hk | hk
      · exact hc.keysSub k hk
      · subst hk
        exact Or.inr (getNeighbors_mem_coords hn)
    · simp only
      rw [alookup_aupd]
      simp only [hne_start, if_neg]
      exact hc.startZero
    · intro p hp'
      rcases mem_aupd hc.nodupKeys hp' with hp' | hp'
      · subst hp'; exact hbound
      · exact hc.distLe p hp'.1
    · intro p hp' hps
      rcases mem_aupd hc.nodupKeys hp' with hp' | hp'
      · subst hp'
        exact ⟨hb, passableAt_iff.mpr ⟨t, ht, hp⟩⟩
      · exact hc.validMem p hp'.1 hps
    · exact keys_aupd_congr hc.prevKeys n (some cur.1) (cur.2 + t.movementCost)
    · simp only
      rw [alookup_aupd]
      simp only [hne_start, if_neg]
      exact hc.prevStart
    · intro k hk hks
      simp only at hk
      rcases mem_keys_aupd hk with hkmem | hkeq
      · by_cases hkn : k = n
        · refine ⟨cur.1, cur.2 + t.movementCost, d, ?_, ?_, ?_, hkn ▸ hn, ?_⟩
          · rw [alookup_aupd]; simp [hkn]
          · rw [alookup_aupd]; simp [hkn]
          · rw [alookup_aupd]
            simp only [show ¬ n = cur.1 from hncur, if_neg]
            exact hd
          · rw [hkn, hstep]; omega
        · obtain ⟨pk, dk, dp, hprev, hdk, hdp, hnb, hle⟩ := hc.prevStep k hkmem hks
          by_cases hpkn : pk = n
          · subst hpkn
            refine ⟨pk, dk, cur.2 + t.movementCost, ?_, ?_, ?_, hnb, ?_⟩
            · rw [alookup_aupd]
              simp only [show ¬ pk = k from fun h => hkn h.symm, if_neg]
              exact hprev
            · rw [alookup_aupd]
              simp only [show ¬ pk = k from fun h => hkn h.symm, if_neg]
              exact hdk
            · rw [alookup_aupd]; simp
            · have := hbetter dp hdp
              omega
          · refine ⟨pk, dk, dp, ?_, ?_, ?_, hnb, hle⟩
            · rw [alookup_aupd]
              simp only [show ¬ n = k from fun h => hkn h.symm, if_neg]
              exact hprev
            · rw [alookup_aupd]
              simp only [show ¬ n = k from fun h => hkn h.symm, if_neg]
              exact hdk
            · rw [alookup_aupd]
              simp only [show ¬ n = pk from fun h => hpkn h.symm, if_neg]
              exact hdp
      · refine ⟨cur.1, cur.2 + t.movementCost, d, ?_, ?_, ?_, hkeq ▸ hn, ?_⟩
        · rw [alookup_aupd]; simp [hkeq]
        · rw [alookup_aupd]; simp [hkeq]
        · rw [alookup_aupd]
          simp only [show ¬ n = cur.1 from hncur, if_neg]
          exact hd
        · rw [hkeq, hstep]; omega
    · intro p hp'
      rcases mem_aupd hc.nodupKeys hp' with hp' | hp'
      · subst hp'
        obtain ⟨c, hcle, hreach⟩ := hc.soundR (cur.1, d) (alookup_mem hd)
        refine ⟨c + stepCost b n, ?_, ?_⟩
        · rw [hstep]; omega
        · refine Reach.step hreach hn hb (passableAt_iff.mpr ⟨t, ht, hp⟩) ?_
          rw [hstep]; omega
      · exact hc.soundR p hp'.1
    · intro x hx
      simp only at hx
      rcases List.mem_append.mp hx with hx | hx
      · obtain ⟨d0, hd0, hd0le⟩ := hc.queueDist x hx
        by_cases hxn : x.1 = n
        · refine ⟨cur.2 + t.movementCost, ?_, ?_⟩
          · rw [alookup_aupd]; simp [hxn]
          · have := hbetter d0 (hxn ▸ hd0)
            omega
        · refine ⟨d0, ?_, hd0le⟩
          rw [alookup_aupd]
          simp only [show ¬ n = x.1 from fun h => hxn h.symm, if_neg]
          exact hd0
      · simp only [List.mem_singleton] at hx
        subst hx
        refine ⟨cur.2 + t.movementCost, ?_, le_rfl⟩
        rw [alookup_aupd]; simp

/-- Closure property relative to a popped node `cur` whose outgoing edges are
being relaxed: a recorded key is faithful in the queue, fully relaxed, or is
`cur`'s own key. -/
def ClosureAux (b : Board) (bl : List HexCoords) (mc : Nat) (cur : PathNode)
    (st : SearchState) : Prop :=
  ∀ p ∈ st.dist,
    ((p.1, p.2) ∈ st.queue) ∨ relaxedAt b bl mc st.dist p.1 p.2 ∨ p.1 = cur.1

theorem relax_closureAux {b : Board} {bl : List HexCoords} {mc : Nat}
    {cur : PathNode} {st : SearchState} {n : HexCoords}
    (hc : SearchInvCore b bl mc start st)
    (hca : ClosureAux b bl mc cur st) :
    ClosureAux b bl mc cur (relax b bl mc cur st n) := by
  have hmono : ∀ k d, alookup st.dist k = some d →
      ∃ d', alookup (relax b bl mc cur st n).dist k = some d' ∧ d' ≤ d :=
    fun k d h => relax_dist_mono h
  rcases hrc : relax_cases b bl mc cur st n with heq | ⟨t, ht, hb, hp, hbound, hbetter, heq⟩
  · rw [heq]; exact hca
  · intro p hp'
    rw [heq] at hp' ⊢
    simp only at hp' ⊢
    rcases mem_aupd hc.nodupKeys hp' with hp' | hp'
    · subst hp'
      exact Or.inl (List.mem_append_right _ (List.mem_singleton.mpr rfl))
    · rcases hca p hp'.1 with hq | hr | hcc
      · exact Or.inl (List.mem_append_left _ hq)
      · refine Or.inr (Or.inl ?_)
        have := @relaxedAt_mono _ _ _ _ ((relax b bl mc cur st n).dist) _ _ hmono hr
        rw [heq] at this
        exact this
      · exact Or.inr (Or.inr hcc)

theorem relax_measure_le {b : Board} {bl : List HexCoords} {mc : Nat}
    {start : HexCoords} {cur : PathNode} {st : SearchState} (n : HexCoords)
    (hc : SearchInvCore b bl mc start st) :
    searchMeasure b mc (relax b bl mc cur st n) ≤ searchMeasure b mc st := by
  rcases relax_cases b bl mc cur st n with heq | ⟨t, ht, hb, hp, hbound, hbetter, heq⟩
  · rw [heq]
  · rw [heq]
    unfold searchMeasure
    simp only [List.length_append, List.length_singleton]
    cases hk : alookup st.dist n with
    | none =>
        have hnotmem : n ∉ st.dist.map Prod.fst := alookup_eq_none_iff.mp hk
        have hkeys := keys_aupd_not_mem st.dist n (cur.2 + t.movementCost) hnotmem
        have hlen : (aupd st.dist n (cur.2 + t.movementCost)).length = st.dist.length + 1 := by
          have := congrArg List.length hkeys
          simpa using this
        have hsum := distSum_aupd_not_mem hnotmem (cur.2 + t.movementCost)
        have hbnd : st.dist.length + 1 ≤ b.tiles.length + 1 := by
          have hnd' : ((aupd st.dist n (cur.2 + t.movementCost)).map Prod.fst).Nodup :=
            nodup_keys_aupd hc.nodupKeys _ _
          have hsub' : ∀ k ∈ (aupd st.dist n (cur.2 + t.movementCost)).map Prod.fst,
              k = start ∨ k ∈ b.tiles.map Tile.coords := by
            intro k hkm
            rcases mem_keys_aupd hkm with hkm | hkm
            · exact hc.keysSub k hkm
            · subst hkm
              have hsome : (tileAt b k).isSome := by rw [ht]; rfl
              obtain ⟨t', ht'⟩ := Option.isSome_iff_exists.mp hsome
              obtain ⟨hmem, hcoords⟩ := tileAt_mem ht'
              exact Or.inr (List.mem_map.mpr ⟨t', hmem, hcoords⟩)
          have := nodup_sub_length hnd' hsub'
          have hlenmap : ((aupd st.dist n (cur.2 + t.movementCost)).map Prod.fst).length =
              st.dist.length + 1 := by
            rw [hkeys]; simp
          have hcoordlen : (b.tiles.map Tile.coords).length = b.tiles.length := by simp
          omega
        rw [hlen, hsum]
        have hx : b.tiles.length + 1 - st.dist.length =
            (b.tiles.length + 1 - (st.dist.length + 1)) + 1 := by omega
        rw [hx, Nat.mul_add, Nat.mul_one]
        omega
    | some known =>
        have hmem : n ∈ st.dist.map Prod.fst :=
          alookup_isSome_iff_mem.mp (by rw [hk]; rfl)
        have hkeys := keys_aupd_mem st.dist n (cur.2 + t.movementCost) hmem
        have hlen : (aupd st.dist n (cur.2 + t.movementCost)).length = st.dist.length := by
          have := congrArg List.length hkeys
          simpa using this
        have hsum := distSum_aupd_mem hk (cur.2 + t.movementCost)
        have hlt := hbetter known hk
        rw [hlen]
        omega

/-! ### The neighbour fold of one loop iteration -/

theorem foldRelax {b : Board} {bl : List HexCoords} {mc : Nat} {start : HexCoords}
    (cur : PathNode) :
    ∀ (L : List HexCoords) (st : SearchState),
    (∀ n ∈ L, n ∈ getNeighbors b cur.1) →
    SearchInvCore b bl mc start st →
    ClosureAux b bl mc cur st →
    (∃ d, alookup st.dist cur.1 = some d ∧ d ≤ cur.2) →
    SearchInvCore b bl mc start (L.foldl (relax b bl mc cur) st) ∧
    ClosureAux b bl mc cur (L.foldl (relax b bl mc cur) st) ∧
    (∀ k d, alookup st.dist k = some d →
       ∃ d', alookup (L.foldl (relax b bl mc cur) st).dist k = some d' ∧ d' ≤ d) ∧
    (∀ x ∈ st.queue, x ∈ (L.foldl (relax b bl mc cur) st).queue) ∧
    (∀ k, k ∉ L → alookup (L.foldl (relax b bl mc cur) st).dist k = alookup st.dist k) ∧
    (∀ v ∈ L, validKey b bl v → cur.2 + stepCost b v ≤ mc →
       ∃ dv, alookup (L.foldl (relax b bl mc cur) st).dist v = some dv ∧
         dv ≤ cur.2 + stepCost b v) ∧
    searchMeasure b mc (L.foldl (relax b bl mc cur) st) ≤ searchMeasure b mc st := by
  intro L
  induction L with
  | nil =>
      intro st hL hc hca hcur
      refine ⟨hc, hca, ?_, ?_, ?_, ?_, le_rfl⟩
      · exact fun k d h => ⟨d, h, le_rfl⟩
      · exact fun x hx => hx
      · exact fun k _ => rfl
      · intro v hv; simp at hv
  | cons n L' ih =>
      intro st hL hc hca hcur
      have hnmem : n ∈ getNeighbors b cur.1 := hL n (List.mem_cons_self n L')
      have hL' : ∀ m ∈ L', m ∈ getNeighbors b cur.1 :=
        fun m hm => hL m (List.mem_cons_of_mem n hm)
      set st1 := relax b bl mc cur st n with hst1
      have hc1 : SearchInvCore b bl mc start st1 := relax_core hc hnmem hcur
      have hca1 : ClosureAux b bl mc cur st1 := relax_closureAux hc hca
      have hcur1 : ∃ d, alookup st1.dist cur.1 = some d ∧ d ≤ cur.2 := by
        obtain ⟨d, hd, hdle⟩ := hcur
        obtain ⟨d', hd', hdle'⟩ := @relax_dist_mono b bl mc cur st n _ _ hd
        exact ⟨d', hd', hdle'.trans hdle⟩
      obtain ⟨rc, rca, rmono, rqueue, runch, rest, rmeas⟩ := ih st1 hL' hc1 hca1 hcur1
      have hfold : (n :: L').foldl (relax b bl mc cur) st =
          L'.foldl (relax b bl mc cur) st1 := rfl
      rw [hfold]
      refine ⟨rc, rca, ?_, ?_, ?_, ?_, ?_⟩
      · intro k d h
        obtain ⟨d1, hd1, hle1⟩ := @relax_dist_mono b bl mc cur st n _ _ h
        obtain ⟨d2, hd2, hle2⟩ := rmono k d1 hd1
        exact ⟨d2, hd2, hle2.trans hle1⟩
      · intro x hx
        exact rqueue x (relax_queue_sub hx)
      · intro k hk
        have hkn : k ≠ n := fun h => hk (h ▸ List.mem_cons_self n L')
        have hkL : k ∉ L' := fun h => hk (List.mem_cons_of_mem n h)
        rw [runch k hkL, relax_dist_ne hkn]
      · intro v hv hval hbound
        rcases List.mem_cons.mp hv with hv | hv
        · subst hv
          obtain ⟨dv, hdv, hdvle⟩ := @relax_establishes b bl mc cur st _ hval hbound
          obtain ⟨dv', hdv', hdvle'⟩ := rmono v dv hdv
          exact ⟨dv', hdv', hdvle'.trans hdvle⟩
        · exact rest v hv hval hbound
      · exact rmeas.trans (relax_measure_le n hc)

/-! ### One loop iteration and the drained loop -/

theorem stepSearch_inv {b : Board} {bl : List HexCoords} {mc : Nat}
    {start : HexCoords} {st : SearchState}
    (h : SearchInv b bl mc start st) (hne : st.queue ≠ []) :
    SearchInv b bl mc start (stepSearch b bl mc st) ∧
    searchMeasure b mc (stepSearch b bl mc st) < searchMeasure b mc st := by
  cases hpop : popSmallest st.queue with
  | none => exact absurd (popSmallest_eq_none_iff.mp hpop) hne
  | some p =>
      rcases p with ⟨cur, rest⟩
      have hperm := popSmallest_perm hpop
      have hstep : stepSearch b bl mc st =
          (getNeighbors b cur.1).foldl (relax b bl mc cur) ⟨st.dist, st.prev, rest⟩ := by
        unfold stepSearch
        rw [hpop]
      set st1 : SearchState := ⟨st.dist, st.prev, rest⟩ with hst1
      have hcore1 : SearchInvCore b bl mc start st1 := by
        constructor
        · exact h.nodupKeys
        · exact h.keysSub
        · exact h.startZero
        · exact h.distLe
        · exact h.validMem
        · exact h.prevKeys
        · exact h.prevStart
        · exact h.prevStep
        · exact h.soundR
        · intro x hx
          exact h.queueDist x (hperm.mem_iff.mpr (List.mem_cons_of_mem cur hx))
      have hca1 : ClosureAux b bl mc cur st1 := by
        intro p hp
        rcases h.closure p hp with hq | hr
        · have := hperm.mem_iff.mp hq
          rcases List.mem_cons.mp this with hq' | hq'
          · exact Or.inr (Or.inr (congrArg Prod.fst hq'))
          · exact Or.inl hq'
        · exact Or.inr (Or.inl hr)
      have hcurmem : cur ∈ st.queue := hperm.mem_iff.mpr (List.mem_cons_self cur rest)
      have hcur : ∃ d, alookup st1.dist cur.1 = some d ∧ d ≤ cur.2 :=
        h.queueDist cur hcurmem
      obtain ⟨rc, rca, rmono, rqueue, runch, rest', rmeas⟩ :=
        foldRelax cur (getNeighbors b cur.1) st1 (fun n hn => hn) hcore1 hca1 hcur
      rw [hstep]
      constructor
      · refine ⟨rc, ?_⟩
        intro p hp
        rcases rca p hp with hq | hr | hcc
        · exact Or.inl hq
        · exact Or.inr hr
        · -- the popped key itself
          obtain ⟨d, hd, hdle⟩ := hcur
          have hcurnot : cur.1 ∉ getNeighbors b cur.1 := fun hmem => getNeighbors_ne hmem rfl
          have hunch := runch cur.1 hcurnot
          have hpd : alookup (((getNeighbors b cur.1).foldl (relax b bl mc cur) st1)).dist p.1 =
              some p.2 := mem_alookup rc.nodupKeys hp
          rw [hcc] at hpd
          rw [hunch] at hpd
          rw [hd] at hpd
          have hpd2 : p.2 = d := by
            injection hpd with h2
            exact h2.symm
          by_cases hdcur : d = cur.2
          · -- the popped node was not stale: all edges of `cur.1` are relaxed
            refine Or.inr ?_
            rw [hcc, hpd2]
            intro v hv hval hbound
            have hbound' : cur.2 + stepCost b v ≤ mc := by rw [← hdcur]; exact hbound
            obtain ⟨dv, hdv, hdvle⟩ := rest' v hv hval hbound'
            refine ⟨dv, hdv, ?_⟩
            rw [← hdcur] at hdvle
            exact hdvle
          · -- stale pop: the faithful queue node for this key is still queued
            have hmemdist : (cur.1, d) ∈ st.dist := alookup_mem hd
            rcases h.closure (cur.1, d) hmemdist with hq | hr
            · have := hperm.mem_iff.mp hq
              rcases List.mem_cons.mp this with hq' | hq'
              · exfalso
                have : d = cur.2 := congrArg Prod.snd hq'
                exact hdcur this
              · refine Or.inl ?_
                have hx : (cur.1, d) ∈
                    (((getNeighbors b cur.1).foldl (relax b bl mc cur) st1)).queue :=
                  rqueue (cur.1, d) hq'
                have hpeq : p = (cur.1, d) := by
                  cases p with
                  | mk p1 p2 =>
                      simp only at hcc hpd2
                      rw [hcc, hpd2]
                exact hpeq ▸ hx
            · refine Or.inr ?_
              have hmono' := relaxedAt_mono (fun k dd hdd => rmono k dd hdd) hr
              have hpeq : p.1 = cur.1 := hcc
              rw [hpeq, hpd2]
              exact hmono'
      · have hlen : st.queue.length = rest.length + 1 := by
          have := hperm.length_eq
          simpa using this
        have hm1 : searchMeasure b mc st1 + 1 = searchMeasure b mc st := by
          unfold searchMeasure
          simp only [hst1]
          omega
        omega

theorem searchLoop_inv {b : Board} {bl : List HexCoords} {mc : Nat}
    {start : HexCoords} :
    ∀ (fuel : Nat) (st : SearchState), SearchInv b bl mc start st →
    searchMeasure b mc st ≤ fuel →
    SearchInv b bl mc start (searchLoop b bl mc fuel st) ∧
    (searchLoop b bl mc fuel st).queue = [] := by
  intro fuel
  induction fuel with
  | zero =>
      intro st hinv hm
      have : st.queue.length = 0 := by
        unfold searchMeasure at hm
        omega
      exact ⟨hinv, List.length_eq_zero.mp this⟩
  | succ fuel ih =>
      intro st hinv hm
      unfold searchLoop
      by_cases hq : st.queue = []
      · simp only [hq, if_pos]
        exact ⟨hinv, trivial⟩
      · simp only [hq, if_neg, not_false_iff]
        obtain ⟨hinv', hlt⟩ := stepSearch_inv hinv hq
        exact ih (stepSearch b bl mc st) hinv' (by omega)

theorem initState_inv {b : Board} {bl : List HexCoords} {mc : Nat}
    {start : HexCoords} : SearchInv b bl mc start (initState start) := by
  constructor
  · constructor
    · simp [initState]
    · intro k hk
      simp [initState] at hk
      exact Or.inl hk
    · simp [initState, alookup]
    · intro p hp
      simp [initState] at hp
      simp [hp]
    · intro p hp hps
      simp [initState] at hp
      exact absurd (congrArg Prod.fst hp) (by simpa using hps)
    · simp [initState]
    · simp [initState, alookup]
    · intro k hk hks
      simp [initState] at hk
      exact absurd hk hks
    · intro p hp
      simp [initState] at hp
      refine ⟨0, by simp [hp], ?_⟩
      have : p.1 = start := congrArg Prod.fst hp
      rw [this]
      exact Reach.refl
    · intro x hx
      simp [initState] at hx
      refine ⟨0, ?_, by simp [hx]⟩
      have : x.1 = start := congrArg Prod.fst hx
      rw [this]
      simp [initState, alookup]
  · intro p hp
    simp [initState] at hp
    refine Or.inl ?_
    rw [hp]
    simp [initState]

/-- The drained final state satisfies the invariant and has an empty queue. -/
theorem finalState_spec (b : Board) (start : HexCoords) (bl : List HexCoords)
    (mc : Nat) :
    SearchInv b bl mc start (finalState b start bl mc) ∧
    (finalState b start bl mc).queue = [] :=
  searchLoop_inv _ _ initState_inv le_rfl

/-! ### Consequences of the drained queue -/

theorem exhausted_relaxed {b : Board} {bl : List HexCoords} {mc : Nat}
    {start : HexCoords} {st : SearchState}
    (h : SearchInv b bl mc start st) (hq : st.queue = []) :
    ∀ p ∈ st.dist, relaxedAt b bl mc st.dist p.1 p.2 := by
  intro p hp
  rcases h.closure p hp with hmem | hr
  · rw [hq] at hmem
    simp at hmem
  · exact hr

/-- Completeness: once the queue has drained, every coordinate legally
reachable within the budget carries a recorded distance no larger than the
cost of the witnessing path. -/
theorem reach_mem {b : Board} {bl : List HexCoords} {mc : Nat}
    {start : HexCoords} {st : SearchState}
    (h : SearchInv b bl mc start st) (hq : st.queue = [])
    {u : HexCoords} {c : Nat} (hr : Reach b bl mc start u c) :
    ∃ du, alookup st.dist u = some du ∧ du ≤ c := by
  induction hr with
  | refl => exact ⟨0, h.startZero, le_rfl⟩
  | @step u' v' c' hru hn hbv hpv hcv ih =>
      obtain ⟨du, hdu, hdule⟩ := ih
      have hrel := exhausted_relaxed h hq (u', du) (alookup_mem hdu)
      have hbound : du + stepCost b v' ≤ mc := by omega
      obtain ⟨dv, hdv, hdvle⟩ := hrel v' hn ⟨hbv, hpv⟩ hbound
      exact ⟨dv, hdv, by omega⟩

/-- At exhaustion a recorded distance is exactly the least cost of a legal
path to that coordinate. -/
theorem dist_exact {b : Board} {bl : List HexCoords} {mc : Nat}
    {start : HexCoords} {st : SearchState}
    (h : SearchInv b bl mc start st) (hq : st.queue = [])
    {u : HexCoords} {du : Nat} (hdu : alookup st.dist u = some du) :
    Reach b bl mc start u du ∧ ∀ c, Reach b bl mc start u c → du ≤ c := by
  have hmin : ∀ c, Reach b bl mc start u c → du ≤ c := by
    intro c hr
    obtain ⟨d', hd', hle'⟩ := reach_mem h hq hr
    rw [hdu] at hd'
    injection hd' with hd2
    omega
  obtain ⟨c, hcle, hreach⟩ := h.soundR (u, du) (alookup_mem hdu)
  have : du ≤ c := hmin c hreach
  have hceq : c = du := by omega
  exact ⟨hceq ▸ hreach, hmin⟩

/-! ### Destination selection: `chooseBest` -/

theorem chooseStep_keep_target {target : HexCoords} {maxCost : Nat}
    {c : Nat} :
    ∀ (m : List (HexCoords × Nat)), (∀ p ∈ m, p.1 ≠ target) →
    m.foldl (chooseStep target true maxCost) (some (target, c)) = some (target, c) := by
  intro m
  induction m with
  | nil => intro _; rfl
  | cons q rest ih =>
      intro hnt
      have hq : q.1 ≠ target := hnt q (List.mem_cons_self q rest)
      have hstep : chooseStep target true maxCost (some (target, c)) q =
          some (target, c) := by
        unfold chooseStep
        by_cases hmc : maxCost < q.2 <;> simp [hmc, hq]
      simp only [List.foldl_cons, hstep]
      exact ih (fun p hp => hnt p (List.mem_cons_of_mem q hp))

/-- When the target key is recorded, the selection pass returns exactly the
target with its recorded cost. -/
theorem chooseBest_target {target : HexCoords} {maxCost : Nat}
    {m : List (HexCoords × Nat)} (hnd : (m.map Prod.fst).Nodup)
    (hall : ∀ p ∈ m, p.2 ≤ maxCost) {c : Nat}
    (hc : alookup m target = some c) :
    chooseBest target true maxCost m = some (target, c) := by
  induction m with
  | nil => simp [alookup] at hc
  | cons q rest ih =>
      by_cases hq : q.1 = target
      · simp only [alookup, hq, if_pos, Option.some.injEq] at hc
        have hqle : q.2 ≤ maxCost := hall q (List.mem_cons_self q rest)
        have hstep : chooseStep target true maxCost none q = some (target, c) := by
          unfold chooseStep
          have hmc : ¬ maxCost < q.2 := by omega
          rw [if_neg hmc, if_pos hq]
          cases q with
          | mk q1 q2 =>
              simp only at hq hc
              rw [hq, hc]
        have hnt : ∀ p ∈ rest, p.1 ≠ target := by
          intro p hp hpt
          simp only [List.map_cons, List.nodup_cons] at hnd
          exact hnd.1 (hq ▸ hpt ▸ List.mem_map.mpr ⟨p, hp, rfl⟩)
        unfold chooseBest
        simp only [List.foldl_cons, hstep]
        exact chooseStep_keep_target rest hnt
      · simp only [alookup, hq, if_neg, not_false_iff] at hc
        have hstep : chooseStep target true maxCost none q = none := by
          unfold chooseStep
          by_cases hmc : maxCost < q.2 <;> simp [hmc, hq]
        have hnd' : (rest.map Prod.fst).Nodup := by
          simp only [List.map_cons, List.nodup_cons] at hnd
          exact hnd.2
        unfold chooseBest at ih ⊢
        simp only [List.foldl_cons, hstep]
        exact ih hnd' (fun p hp => hall p (List.mem_cons_of_mem q hp)) hc

/-- Lexicographic preference used by the closest-tile fallback. -/
def lexLE (target : HexCoords) (a p : HexCoords × Nat) : Prop :=
  manhattan a.1 target ≤ manhattan p.1 target ∧
    (manhattan a.1 target = manhattan p.1 target → a.2 ≤ p.2)

theorem chooseBest_closest_go {target : HexCoords} {maxCost : Nat} :
    ∀ (m : List (HexCoords × Nat)), (∀ p ∈ m, p.2 ≤ maxCost) →
    (∀ p ∈ m, p.1 ≠ target) →
    (∀ bp, ∃ bp', m.foldl (chooseStep target false maxCost) (some bp) = some bp' ∧
       (bp' ∈ m ∨ bp' = bp) ∧ lexLE target bp' bp ∧ ∀ p ∈ m, lexLE target bp' p) ∧
    (m ≠ [] → ∃ bp', m.foldl (chooseStep target false maxCost) none = some bp' ∧
       bp' ∈ m ∧ ∀ p ∈ m, lexLE target bp' p) := by
  intro m
  induction m with
  | nil =>
      intro _ _
      refine ⟨?_, ?_⟩
      · intro bp
        exact ⟨bp, rfl, Or.inr rfl, ⟨le_rfl, fun _ => le_rfl⟩, by simp⟩
      · intro h; exact absurd rfl h
  | cons q rest ih =>
      intro hall hnt
      have hqle : q.2 ≤ maxCost := hall q (List.mem_cons_self q rest)
      have hqt : q.1 ≠ target := hnt q (List.mem_cons_self q rest)
      have hmc : ¬ maxCost < q.2 := by omega
      have hall' : ∀ p ∈ rest, p.2 ≤ maxCost :=
        fun p hp => hall p (List.mem_cons_of_mem q hp)
      have hnt' : ∀ p ∈ rest, p.1 ≠ target :=
        fun p hp => hnt p (List.mem_cons_of_mem q hp)
      obtain ⟨ihsome, ihnone⟩ := ih hall' hnt'
      have hstep_none : chooseStep target false maxCost none q = some q := by
        unfold chooseStep
        simp [hmc, hqt]
      constructor
      · intro bp
        by_cases hbetter : manhattan q.1 target < manhattan bp.1 target ∨
            (manhattan q.1 target = manhattan bp.1 target ∧ q.2 < bp.2)
        · have hstep : chooseStep target false maxCost (some bp) q = some q := by
            unfold chooseStep
            simp [hmc, hqt, hbetter]
          obtain ⟨bp', hfold, hmem, hle, hally⟩ := ihsome q
          refine ⟨bp', ?_, ?_, ?_, ?_⟩
          · simp only [List.foldl_cons, hstep]; exact hfold
          · rcases hmem with hmem | hmem
            · exact Or.inl (List.mem_cons_of_mem q hmem)
            · exact Or.inl (hmem ▸ List.mem_cons_self q rest)
          · obtain ⟨h1, h2⟩ := hle
            constructor <;> [skip; intro heq] <;> omega
          · intro p hp
            rcases List.mem_cons.mp hp with hp | hp
            · exact hp ▸ hle
            · exact hally p hp
        · have hstep : chooseStep target false maxCost (some bp) q = some bp := by
            unfold chooseStep
            simp [hmc, hqt, hbetter]
          obtain ⟨bp', hfold, hmem, hle, hally⟩ := ihsome bp
          refine ⟨bp', ?_, ?_, hle, ?_⟩
          · simp only [List.foldl_cons, hstep]; exact hfold
          · rcases hmem with hmem | hmem
            · exact Or.inl (List.mem_cons_of_mem q hmem)
            · exact Or.inr hmem
          · intro p hp
            rcases List.mem_cons.mp hp with hp | hp
            · subst hp
              obtain ⟨h1, h2⟩ := hle
              push_neg at hbetter
              constructor <;> [skip; intro heq] <;> omega
            · exact hally p hp
      · intro _
        obtain ⟨bp', hfold, hmem, hle, hally⟩ := ihsome q
        refine ⟨bp', ?_, ?_, ?_⟩
        · simp only [List.foldl_cons, hstep_none]; exact hfold
        · rcases hmem with hmem | hmem
          · exact List.mem_cons_of_mem q hmem
          · exact hmem ▸ List.mem_cons_self q rest
        · intro p hp
          rcases List.mem_cons.mp hp with hp | hp
          · exact hp ▸ hle
          · exact hally p hp

/-- When the target is not recorded, the selection pass returns a recorded
entry minimising the Manhattan distance, ties broken by lower cost. -/
theorem chooseBest_closest {target : HexCoords} {maxCost : Nat}
    {m : List (HexCoords × Nat)} (hall : ∀ p ∈ m, p.2 ≤ maxCost)
    (hnt : ∀ p ∈ m, p.1 ≠ target) (hne : m ≠ []) :
    ∃ bp, chooseBest target false maxCost m = some bp ∧ bp ∈ m ∧
      ∀ p ∈ m, lexLE target bp p :=
  (chooseBest_closest_go m hall hnt).2 hne

/-! ### Path reconstruction -/

theorem buildRev_none (prev : List (HexCoords × Option HexCoords)) (fuel : Nat) :
    buildRev prev fuel none = [] := by
  cases fuel <;> rfl

theorem buildRev_mem_keys {b : Board} {bl : List HexCoords} {mc : Nat}
    {start : HexCoords} {st : SearchState}
    (h : SearchInvCore b bl mc start st) :
    ∀ (fuel : Nat) (ok : Option HexCoords),
    (∀ k, ok = some k → k ∈ st.dist.map Prod.fst) →
    ∀ c ∈ buildRev st.prev fuel ok, c ∈ st.dist.map Prod.fst := by
  intro fuel
  induction fuel with
  | zero =>
      intro ok hok c hc
      simp [buildRev] at hc
  | succ fuel ih =>
      intro ok hok c hc
      cases ok with
      | none => simp [buildRev] at hc
      | some k =>
          simp only [buildRev] at hc
          rcases List.mem_cons.mp hc with hc | hc
          · exact hc ▸ hok k rfl
          · refine ih (nextOf st.prev k) ?_ c hc
            intro p hp
            unfold nextOf at hp
            cases hpk : alookup st.prev k with
            | none => rw [hpk] at hp; cases hp
            | some op =>
                rw [hpk] at hp
                simp only at hp
                subst hp
                have hkmem : k ∈ st.prev.map Prod.fst :=
                  alookup_isSome_iff_mem.mp (by rw [hpk]; rfl)
                rw [h.prevKeys] at hkmem
                by_cases hks : k = start
                · rw [hks, h.prevStart] at hpk
                  injection hpk with h2
                  cases h2
                · obtain ⟨pk, dk, dp, hprev, hdk, hdp, hnb, hle⟩ :=
                    h.prevStep k hkmem hks
                  rw [hprev] at hpk
                  injection hpk with h2
                  injection h2 with h3
                  subst h3
                  exact alookup_isSome_iff_mem.mp (by rw [hdp]; rfl)

/-- At exhaustion the parent pointer records an exact edge: the recorded
distance of a non-start key equals its parent's distance plus the entry
cost. -/
theorem prev_exact {b : Board} {bl : List HexCoords} {mc : Nat}
    {start : HexCoords} {st : SearchState}
    (h : SearchInv b bl mc start st) (hq : st.queue = [])
    {k : HexCoords} (hks : k ≠ start) (hkmem : k ∈ st.dist.map Prod.fst) :
    ∃ pk dk dp, alookup st.prev k = some (some pk) ∧
      alookup st.dist k = some dk ∧ alookup st.dist pk = some dp ∧
      k ∈ getNeighbors b pk ∧ dk = dp + stepCost b k := by
  obtain ⟨pk, dk, dp, hprev, hdk, hdp, hnb, hle⟩ := h.prevStep k hkmem hks
  have hrel := exhausted_relaxed h hq (pk, dp) (alookup_mem hdp)
  have hval : validKey b bl k := h.validMem (k, dk) (alookup_mem hdk) hks
  have hdkle : dk ≤ mc := h.distLe (k, dk) (alookup_mem hdk)
  have hbound : dp + stepCost b k ≤ mc := by omega
  obtain ⟨dv, hdv, hdvle⟩ := hrel k hnb hval hbound
  rw [hdk] at hdv
  injection hdv with h2
  subst h2
  exact ⟨pk, dk, dp, hprev, hdk, hdp, hnb, by omega⟩

theorem length_filter_le_of_imp {α : Type} (l : List α) (P Q : α → Bool)
    (himp : ∀ x ∈ l, P x = true → Q x = true) :
    (l.filter P).length ≤ (l.filter Q).length := by
  induction l with
  | nil => simp
  | cons y rest ih =>
      have ih' := ih (fun x hx => himp x (List.mem_cons_of_mem y hx))
      have hy := himp y (List.mem_cons_self y rest)
      cases hP : P y with
      | true =>
          have hQ : Q y = true := hy hP
          simp [List.filter_cons, hP, hQ]
          omega
      | false =>
          cases hQ : Q y <;> simp [List.filter_cons, hP, hQ] <;> omega

theorem length_filter_lt_of_witness {α : Type} (l : List α) (P Q : α → Bool)
    (himp : ∀ x ∈ l, P x = true → Q x = true) (x : α) (hx : x ∈ l)
    (hQ : Q x = true) (hP : P x = false) :
    (l.filter P).length < (l.filter Q).length := by
  induction l with
  | nil => simp at hx
  | cons y rest ih =>
      have himp' : ∀ z ∈ rest, P z = true → Q z = true :=
        fun z hz => himp z (List.mem_cons_of_mem y hz)
      rcases List.mem_cons.mp hx with hxy | hxr
      · subst hxy
        have hle := length_filter_le_of_imp rest P Q himp'
        simp [List.filter_cons, hP, hQ]
        omega
      · have hlt := ih himp' hxr
        have hy := himp y (List.mem_cons_self y rest)
        cases hPy : P y with
        | true =>
            have hQy : Q y = true := hy hPy
            simp [List.filter_cons, hPy, hQy]
            omega
        | false =>
            cases hQy : Q y <;> simp [List.filter_cons, hPy, hQy] <;> omega

/-- Full description of the reconstruction walk at exhaustion (under the
data-model assumption that every tile's movement cost is at least 1): the
produced destination-to-start list starts at the requested key, ends at
`start`, follows board edges, and charges exactly the recorded distance. -/
theorem buildRev_chain {b : Board} {bl : List HexCoords} {mc : Nat}
    {start : HexCoords} {st : SearchState}
    (h : SearchInv b bl mc start st) (hq : st.queue = [])
    (hmc : ∀ t ∈ b.tiles, 1 ≤ t.movementCost) :
    ∀ (N : Nat) (k : HexCoords) (dk : Nat) (fuel : Nat),
    alookup st.dist k = some dk →
    (st.dist.filter (fun p => decide (p.2 < dk))).length < N →
    (st.dist.filter (fun p => decide (p.2 < dk))).length + 1 ≤ fuel →
    ∃ l, buildRev st.prev fuel (some k) = l ∧ l.head? = some k ∧
      l.getLast? = some start ∧
      l.Chain' (fun x y => ∃ d ∈ dirs, x = hexAdd y d) ∧
      (l.dropLast.map (stepCost b)).sum = dk ∧
      (∀ c ∈ l.dropLast, c ≠ start) := by
  intro N
  induction N with
  | zero =>
      intro k dk fuel _ hN _
      omega
  | succ N ih =>
      intro k dk fuel hdk hN hfuel
      obtain ⟨f, hf⟩ : ∃ f, fuel = f + 1 := ⟨fuel - 1, by omega⟩
      subst hf
      by_cases hks : k = start
      · have hdk0 : dk = 0 := by
          rw [hks, h.startZero] at hdk
          injection hdk with h2
          omega
        have hnext : nextOf st.prev k = none := by
          unfold nextOf
          rw [hks, h.prevStart]
        refine ⟨[k], ?_, rfl, by simp [hks], List.chain'_singleton k, ?_, by simp⟩
        · simp only [buildRev, hnext, buildRev_none]
        · simp [hdk0]
      · have hkmem : k ∈ st.dist.map Prod.fst :=
          alookup_isSome_iff_mem.mp (by rw [hdk]; rfl)
        obtain ⟨pk, dk', dp, hprev, hdk', hdp, hnb, hedge⟩ := prev_exact h hq hks hkmem
        have hdkeq : dk' = dk := by
          rw [hdk] at hdk'
          injection hdk' with h2
          omega
        rw [hdkeq] at hedge
        have hstep1 : 1 ≤ stepCost b k := by
          have hval : validKey b bl k := h.validMem (k, dk) (alookup_mem hdk) hks
          obtain ⟨t, ht, hp⟩ := passableAt_iff.mp hval.2
          rw [stepCost_of_tileAt ht]
          exact hmc t (tileAt_mem ht).1
        have hdplt : dp < dk := by omega
        have hmu : (st.dist.filter (fun p => decide (p.2 < dp))).length <
            (st.dist.filter (fun p => decide (p.2 < dk))).length := by
          refine length_filter_lt_of_witness st.dist _ _ ?_ (pk, dp)
            (alookup_mem hdp) (by simp [hdplt]) (by simp)
          intro x _ hx
          simp only [decide_eq_true_eq] at hx ⊢
          omega
        obtain ⟨l', hl', hhead, hlast, hchain, hsum, hmem⟩ :=
          ih pk dp f hdp (by omega) (by omega)
        have hnext : nextOf st.prev k = some pk := by
          unfold nextOf
          rw [hprev]
        cases l' with
        | nil => simp at hhead
        | cons p0 l'' =>
            have hp0 : p0 = pk := by
              simp only [List.head?_cons] at hhead
              injection hhead with h2
            refine ⟨k :: p0 :: l'', ?_, rfl, ?_, ?_, ?_, ?_⟩
            · simp only [buildRev, hnext, hl']
            · rw [List.getLast?_cons_cons]
              exact hlast
            · rw [List.chain'_cons]
              refine ⟨?_, hchain⟩
              obtain ⟨⟨d, hd, hkd⟩, -⟩ := mem_getNeighbors hnb
              exact ⟨d, hd, by rw [hp0]; exact hkd⟩
            · have hdrop : (k :: p0 :: l'').dropLast = k :: (p0 :: l'').dropLast := by
                simp [List.dropLast]
              rw [hdrop]
              simp only [List.map_cons, List.sum_cons]
              omega
            · intro c hc
              have hdrop : (k :: p0 :: l'').dropLast = k :: (p0 :: l'').dropLast := by
                simp [List.dropLast]
              rw [hdrop] at hc
              rcases List.mem_cons.mp hc with hc | hc
              · exact hc ▸ hks
              · exact hmem c hc

/-! ### The assembled `findPath` -/

theorem buildRev_head (prev : List (HexCoords × Option HexCoords)) (fuel : Nat)
    (k : HexCoords) (hf : 1 ≤ fuel) :
    (buildRev prev fuel (some k)).head? = some k := by
  cases fuel with
  | zero => omega
  | succ f => rfl

/-- How one call of `findPath` unfolds: the drained search state, the chosen
destination entry, and the reconstructed path. -/
theorem findPath_run (b : Board) (start target : HexCoords) (bl : List HexCoords)
    (mc : Nat) :
    ∃ bp : HexCoords × Nat,
      alookup (finalState b start bl mc).dist bp.1 = some bp.2 ∧
      findPath b start target bl mc =
        some ⟨bp.2, (buildRev (finalState b start bl mc).prev
          (finalState b start bl mc).prev.length (some bp.1)).reverse⟩ ∧
      ((alookup (finalState b start bl mc).dist target).isSome → bp.1 = target) ∧
      (alookup (finalState b start bl mc).dist target = none →
        ∀ p ∈ (finalState b start bl mc).dist, lexLE target bp p) := by
  obtain ⟨hinv, hq⟩ := finalState_spec b start bl mc
  have hne : ¬ (finalState b start bl mc).dist.isEmpty = true := by
    intro habs
    have hmem : start ∈ (finalState b start bl mc).dist.map Prod.fst :=
      alookup_isSome_iff_mem.mp (by rw [hinv.startZero]; rfl)
    rw [List.isEmpty_iff] at habs
    rw [habs] at hmem
    simp at hmem
  cases htr : (alookup (finalState b start bl mc).dist target).isSome with
  | true =>
      obtain ⟨c, hc⟩ := Option.isSome_iff_exists.mp htr
      have hcb := @chooseBest_target _ mc _ hinv.nodupKeys hinv.distLe _ hc
      refine ⟨(target, c), hc, ?_, fun _ => rfl, ?_⟩
      · unfold findPath
        rw [if_neg hne, htr, hcb]
      · intro habs
        rw [habs] at hc
        cases hc
  | false =>
      have hnone : alookup (finalState b start bl mc).dist target = none := by
        cases hl : alookup (finalState b start bl mc).dist target with
        | none => rfl
        | some c => rw [hl] at htr; simp at htr
      have hnt : ∀ p ∈ (finalState b start bl mc).dist, p.1 ≠ target := by
        intro p hp hpt
        have : target ∈ (finalState b start bl mc).dist.map Prod.fst :=
          hpt ▸ List.mem_map.mpr ⟨p, hp, rfl⟩
        rw [← alookup_isSome_iff_mem] at this
        rw [hnone] at this
        simp at this
      have hnenil : (finalState b start bl mc).dist ≠ [] := by
        intro habs
        exact hne (by rw [habs]; rfl)
      obtain ⟨bp, hcb, hmem, hbest⟩ :=
        chooseBest_closest hinv.distLe hnt hnenil
      refine ⟨bp, mem_alookup hinv.nodupKeys hmem, ?_, ?_, fun _ => hbest⟩
      · unfold findPath
        rw [if_neg hne, htr, hcb]
      · intro habs
        exact absurd habs (by simp)

/-- The three-tile, uniform cost-1 row `(0,0) – (1,0) – (2,0)` of the spec's
movement scenarios. -/
def rowBoard : Board :=
  ⟨[⟨⟨0, 0⟩, true, 1⟩, ⟨⟨1, 0⟩, true, 1⟩, ⟨⟨2, 0⟩, true, 1⟩]⟩

/-- C6: `findPath` returns none exactly when not even the start qualifies as
a reachable cost-0 destination — and since the search always records the
start at cost 0 (within any non-negative budget), that never happens: the
result is never `none`. -/
theorem findPath_none_iff (b : Board) (start target : HexCoords)
    (bl : List HexCoords) (mc : Nat) :
    (findPath b start target bl mc = none ↔ ¬ Reach b bl mc start start 0) ∧
    findPath b start target bl mc ≠ none := by
  obtain ⟨bp, hbp, heq, -, -⟩ := findPath_run b start target bl mc
  have hsome : findPath b start target bl mc ≠ none := by
    rw [heq]; simp
  refine ⟨⟨fun h => absurd h hsome, fun h => absurd Reach.refl h⟩, hsome⟩

/-- C2: if the target is reachable within the budget, the returned
destination (final path element) is the target; otherwise the destination
minimises the Manhattan distance to the target over all reachable tiles,
ties broken by lower accumulated cost.  In particular, a speed-1 unit at
`(0,0)` aiming at `(2,0)` on the uniform cost-1 row lands at `(1,0)` with
cost 1. -/
theorem findPath_destination_policy (b : Board) (start target : HexCoords)
    (bl : List HexCoords) (mc : Nat) :
    ((∃ c, Reach b bl mc start target c) →
      ∃ res, findPath b start target bl mc = some res ∧
        res.path.getLast? = some target) ∧
    ((¬ ∃ c, Reach b bl mc start target c) →
      ∃ res dest, findPath b start target bl mc = some res ∧
        res.path.getLast? = some dest ∧
        Reach b bl mc start dest res.cost ∧
        (∀ u c, Reach b bl mc start u c →
          manhattan dest target ≤ manhattan u target ∧
          (manhattan dest target = manhattan u target → res.cost ≤ c))) ∧
    findPath rowBoard ⟨0, 0⟩ ⟨2, 0⟩ [] 1 = some ⟨1, [⟨0, 0⟩, ⟨1, 0⟩]⟩ := by
  obtain ⟨hinv, hq⟩ := finalState_spec b start bl mc
  obtain ⟨bp, hbp, heq, htgt, hclosest⟩ := findPath_run b start target bl mc
  have hplen : 1 ≤ (finalState b start bl mc).prev.length := by
    have hmem : start ∈ (finalState b start bl mc).dist.map Prod.fst :=
      alookup_isSome_iff_mem.mp (by rw [hinv.startZero]; rfl)
    have h1 : (finalState b start bl mc).prev.length =
        (finalState b start bl mc).dist.length := by
      have := congrArg List.length hinv.prevKeys
      simpa using this
    rw [h1]
    cases hdist : (finalState b start bl mc).dist with
    | nil => rw [hdist] at hmem; simp at hmem
    | cons _ _ => simp
  have hlast : ∀ k, (buildRev (finalState b start bl mc).prev
      (finalState b start bl mc).prev.length (some k)).reverse.getLast? = some k := by
    intro k
    rw [List.getLast?_reverse]
    exact buildRev_head _ _ k hplen
  refine ⟨?_, ?_, by decide⟩
  · rintro ⟨c, hc⟩
    obtain ⟨du, hdu, -⟩ := reach_mem hinv hq hc
    have htgt' : bp.1 = target := htgt (by rw [hdu]; rfl)
    refine ⟨_, heq, ?_⟩
    simp only
    rw [hlast bp.1, htgt']
  · intro hnr
    have hnone : alookup (finalState b start bl mc).dist target = none := by
      cases hl : alookup (finalState b start bl mc).dist target with
      | none => rfl
      | some c =>
          obtain ⟨creach, hmin⟩ := dist_exact hinv hq hl
          exact absurd ⟨c, creach⟩ hnr
    have hbest := hclosest hnone
    obtain ⟨hreach_bp, -⟩ := dist_exact hinv hq hbp
    refine ⟨_, bp.1, heq, ?_, hreach_bp, ?_⟩
    · simp only
      rw [hlast bp.1]
    · intro u c hru
      obtain ⟨du, hdu, hdule⟩ := reach_mem hinv hq hru
      have hlex := hbest (u, du) (alookup_mem hdu)
      obtain ⟨h1, h2⟩ := hlex
      exact ⟨h1, fun he => le_trans (h2 he) hdule⟩

/-- C8: the returned path never passes (beyond possibly the start itself)
through a blocked coordinate, a missing tile, or an impassable tile. -/
theorem findPath_avoids_blocked (b : Board) (start target : HexCoords)
    (bl : List HexCoords) (mc : Nat) :
    ∀ res, findPath b start target bl mc = some res →
      ∀ c ∈ res.path, c ≠ start →
        c ∉ bl ∧ ∃ t, tileAt b c = some t ∧ t.passable = true := by
  obtain ⟨hinv, hq⟩ := finalState_spec b start bl mc
  obtain ⟨bp, hbp, heq, -, -⟩ := findPath_run b start target bl mc
  intro res hres c hc hcs
  rw [heq] at hres
  injection hres with h2
  subst h2
  simp only [List.mem_reverse] at hc
  have hkeys : c ∈ (finalState b start bl mc).dist.map Prod.fst := by
    refine buildRev_mem_keys hinv.toSearchInvCore
      ((finalState b start bl mc).prev.length) (some bp.1) ?_ c hc
    intro k hk
    injection hk with h3
    subst h3
    exact alookup_isSome_iff_mem.mp (by rw [hbp]; rfl)
  obtain ⟨dc, hdc⟩ := Option.isSome_iff_exists.mp (alookup_isSome_iff_mem.mpr hkeys)
  have hval : validKey b bl c :=
    hinv.validMem (c, dc) (alookup_mem hdc) hcs
  obtain ⟨t, ht, hp⟩ := passableAt_iff.mp hval.2
  exact ⟨hval.1, t, ht, hp⟩

/-- Used below: the micro-measure of the chain lemma is within bounds for the
chosen entry. -/
theorem filter_lt_self_length {m : List (HexCoords × Nat)} {k : HexCoords}
    {dk : Nat} (h : alookup m k = some dk) :
    (m.filter (fun p => decide (p.2 < dk))).length < m.length := by
  have hw := length_filter_lt_of_witness m (fun p => decide (p.2 < dk))
    (fun _ => true) (fun x _ _ => rfl) (k, dk) (alookup_mem h)
    rfl (by simp)
  rw [List.filter_true] at hw
  exact hw

/-- C7: a successful `findPath` returns a cost equal to the summed movement
cost of the tiles entered along the returned path, and that cost respects the
budget.  (Movement costs are at least 1, as the data model requires.) -/
theorem findPath_cost_consistent (b : Board) (start target : HexCoords)
    (bl : List HexCoords) (mc : Nat)
    (hmc : ∀ t ∈ b.tiles, 1 ≤ t.movementCost) :
    ∀ res, findPath b start target bl mc = some res →
      pathCost b res.path = res.cost ∧ res.cost ≤ mc := by
  obtain ⟨hinv, hq⟩ := finalState_spec b start bl mc
  obtain ⟨bp, hbp, heq, -, -⟩ := findPath_run b start target bl mc
  intro res hres
  rw [heq] at hres
  injection hres with h2
  subst h2
  have hmu := filter_lt_self_length hbp
  have hplen : (finalState b start bl mc).prev.length =
      (finalState b start bl mc).dist.length := by
    have := congrArg List.length hinv.prevKeys
    simpa using this
  obtain ⟨l, hl, hhead, hlast, hchain, hsum, hmem⟩ :=
    buildRev_chain hinv hq hmc ((finalState b start bl mc).dist.length)
      bp.1 bp.2 ((finalState b start bl mc).prev.length) hbp hmu (by omega)
  constructor
  · simp only [hl]
    obtain ⟨x, rest, hxr⟩ : ∃ x rest, l.reverse = x :: rest := by
      cases hlr : l.reverse with
      | nil =>
          rw [List.reverse_eq_nil_iff] at hlr
          rw [hlr] at hhead
          cases hhead
      | cons x rest => exact ⟨x, rest, rfl⟩
    have hcost : pathCost b (l.reverse) = ((l.reverse).tail.map (stepCost b)).sum := by
      rw [hxr]
      rfl
    rw [hcost, List.tail_reverse, List.map_reverse, List.sum_reverse]
    exact hsum
  · exact hinv.distLe (bp.1, bp.2) (alookup_mem hbp)

/-- C10: the returned path is a connected chain: it begins at the start,
every consecutive pair differs by one of the four axial unit offsets, and
every coordinate after the first carries a board tile. -/
theorem findPath_path_connected (b : Board) (start target : HexCoords)
    (bl : List HexCoords) (mc : Nat)
    (hmc : ∀ t ∈ b.tiles, 1 ≤ t.movementCost) :
    ∀ res, findPath b start target bl mc = some res →
      res.path.head? = some start ∧
      res.path.Chain' (fun x y => ∃ d ∈ dirs, y = hexAdd x d) ∧
      ∀ c ∈ res.path.tail, ∃ t, tileAt b c = some t := by
  obtain ⟨hinv, hq⟩ := finalState_spec b start bl mc
  obtain ⟨bp, hbp, heq, -, -⟩ := findPath_run b start target bl mc
  intro res hres
  rw [heq] at hres
  injection hres with h2
  subst h2
  have hmu := filter_lt_self_length hbp
  have hplen : (finalState b start bl mc).prev.length =
      (finalState b start bl mc).dist.length := by
    have := congrArg List.length hinv.prevKeys
    simpa using this
  obtain ⟨l, hl, hhead, hlast, hchain, hsum, hmem⟩ :=
    buildRev_chain hinv hq hmc ((finalState b start bl mc).dist.length)
      bp.1 bp.2 ((finalState b start bl mc).prev.length) hbp hmu (by omega)
  simp only [hl]
  refine ⟨?_, ?_, ?_⟩
  · rw [List.head?_reverse]
    exact hlast
  · rw [List.chain'_reverse]
    have : (fun x y => ∃ d ∈ dirs, x = hexAdd y d) =
        flip (fun x y => ∃ d ∈ dirs, y = hexAdd x d) := rfl
    rw [← this]
    exact hchain
  · intro c hc
    rw [List.tail_reverse, List.mem_reverse] at hc
    have hcs : c ≠ start := hmem c hc
    have hcl : c ∈ l := List.dropLast_subset l hc
    have hkeys : c ∈ (finalState b start bl mc).dist.map Prod.fst := by
      refine buildRev_mem_keys hinv.toSearchInvCore
        ((finalState b start bl mc).prev.length) (some bp.1) ?_ c (hl ▸ hcl)
      intro k hk
      injection hk with h3
      subst h3
      exact alookup_isSome_iff_mem.mp (by rw [hbp]; rfl)
    obtain ⟨dc, hdc⟩ := Option.isSome_iff_exists.mp (alookup_isSome_iff_mem.mpr hkeys)
    have hval : validKey b bl c :=
      hinv.validMem (c, dc) (alookup_mem hdc) hcs
    obtain ⟨t, ht, -⟩ := passableAt_iff.mp hval.2
    exact ⟨t, ht⟩

theorem findPath_none_iff_witness :
    findPath rowBoard ⟨0, 0⟩ ⟨2, 0⟩ [] 1 ≠ none :=
  (findPath_none_iff rowBoard ⟨0, 0⟩ ⟨2, 0⟩ [] 1).2

theorem findPath_destination_policy_witness :
    ∃ res, findPath rowBoard ⟨0, 0⟩ ⟨2, 0⟩ [] 2 = some res ∧
      res.path.getLast? = some ⟨2, 0⟩ := by
  refine (findPath_destination_policy rowBoard ⟨0, 0⟩ ⟨2, 0⟩ [] 2).1 ⟨2, ?_⟩
  have h1 : Reach rowBoard [] 2 ⟨0, 0⟩ ⟨1, 0⟩ (0 + stepCost rowBoard ⟨1, 0⟩) :=
    Reach.step Reach.refl (by decide) (by decide) (by decide) (by decide)
  have h2 : Reach rowBoard [] 2 ⟨0, 0⟩ ⟨2, 0⟩
      ((0 + stepCost rowBoard ⟨1, 0⟩) + stepCost rowBoard ⟨2, 0⟩) :=
    Reach.step h1 (by decide) (by decide) (by decide) (by decide)
  have he : (0 + stepCost rowBoard ⟨1, 0⟩) + stepCost rowBoard ⟨2, 0⟩ = 2 := by decide
  exact he ▸ h2

theorem findPath_avoids_blocked_witness :
    (⟨1, 0⟩ : HexCoords) ∉ ([⟨1, 5⟩] : List HexCoords) ∧
    ∃ t, tileAt rowBoard ⟨1, 0⟩ = some t ∧ t.passable = true :=
  findPath_avoids_blocked rowBoard ⟨0, 0⟩ ⟨2, 0⟩ [⟨1, 5⟩] 2
    ⟨2, [⟨0, 0⟩, ⟨1, 0⟩, ⟨2, 0⟩]⟩ (by decide) ⟨1, 0⟩ (by decide) (by decide)

theorem findPath_cost_consistent_witness :
    pathCost rowBoard [⟨0, 0⟩, ⟨1, 0⟩, ⟨2, 0⟩] = 2 ∧ (2 : Nat) ≤ 2 :=
  findPath_cost_consistent rowBoard ⟨0, 0⟩ ⟨2, 0⟩ [] 2 (by decide)
    ⟨2, [⟨0, 0⟩, ⟨1, 0⟩, ⟨2, 0⟩]⟩ (by decide)

theorem findPath_path_connected_witness :
    ([⟨0, 0⟩, ⟨1, 0⟩, ⟨2, 0⟩] : List HexCoords).head? = some ⟨0, 0⟩ ∧
    ([⟨0, 0⟩, ⟨1, 0⟩, ⟨2, 0⟩] : List HexCoords).Chain'
      (fun x y => ∃ d ∈ dirs, y = hexAdd x d) ∧
    ∀ c ∈ ([⟨0, 0⟩, ⟨1, 0⟩, ⟨2, 0⟩] : List HexCoords).tail,
      ∃ t, tileAt rowBoard c = some t :=
  findPath_path_connected rowBoard ⟨0, 0⟩ ⟨2, 0⟩ [] 2 (by decide)
    ⟨2, [⟨0, 0⟩, ⟨1, 0⟩, ⟨2, 0⟩]⟩ (by decide)

/-! ## The board page: client game state, handlers, and the modelled backend

The React state of `src/app/board/page.tsx` is represented as one record and
each handler as a state-transition function.  The `useState` setters become
record updates.  The only parts not present in this repository are the
backend's application of a MOVE / ATTACK / END_TURN action; those are
modelled from the spec (§6): MOVE sets the unit's position to the payload
coordinate, ATTACK subtracts the client-computed `damageApplied`, END_TURN
yields the next snapshot's turn number and current player. -/

inductive Side
  | player
  | enemy
deriving DecidableEq, Repr

inductive PhaseC
  | deployment
  | battle
  | finished
deriving DecidableEq, Repr

inductive VictoryMode
  | points
  | elimination
  | turns
deriving DecidableEq, Repr

inductive Winner
  | player
  | enemy
  | draw
deriving DecidableEq, Repr

/-- `GameResult` of the board page: `winner` is `none` while the game is in
progress. -/
structure GameResultC where
  winner : Option Winner
  reason : String
deriving DecidableEq, Repr

/-- `OwnedUnit` of the board page: template stats merged with the live
instance state (id, owner, position, current hit points).  Presentation-only
fields (name, icon colour, cost, the unused `defense`) are omitted. -/
structure OwnedUnit where
  uniqueId : Nat
  owner : Side
  position : Option HexCoords
  currentHp : Int
  maxHp : Int
  meleeAttack : Int
  rangedAttack : Int
  attackRange : Nat
  speed : Nat
deriving DecidableEq, Repr

/-- The React state of the board page that the battle rules read and write. -/
structure ClientState where
  phase : PhaseC
  activeSide : Side
  victoryMode : VictoryMode
  turnLimit : Nat
  roundNumber : Nat
  gameResult : GameResultC
  playerUnits : List OwnedUnit
  enemyUnits : List OwnedUnit
  selectedUnitId : Option Nat
  actedPlayer : List Nat
  actedEnemy : List Nat
  movedPlayer : List Nat
  movedEnemy : List Nat
  pathCoords : List HexCoords
  error : Option String
  board : Board
deriving DecidableEq, Repr

def allUnits (s : ClientState) : List OwnedUnit :=
  s.playerUnits ++ s.enemyUnits

/-- `[...playerUnits, ...enemyUnits].find(u => u.uniqueId === id)`. -/
def findUnit (s : ClientState) (uid : Nat) : Option OwnedUnit :=
  (allUnits s).find? (fun u => decide (u.uniqueId = uid))

def selectedUnit (s : ClientState) : Option OwnedUnit :=
  match s.selectedUnitId with
  | none => none
  | some uid => findUnit s uid

/-- One unit's contribution to `occupiedMap`. -/
def occStep (m : List (HexCoords × OwnedUnit)) (u : OwnedUnit) :
    List (HexCoords × OwnedUnit) :=
  match u.position with
  | some c => if 0 < u.currentHp then aupd m c u else m
  | none => m

/-- `occupiedMap`: living, positioned units keyed by their tile (a JS `Map`,
so a duplicated key keeps the last written unit). -/
def occupiedMap (s : ClientState) : List (HexCoords × OwnedUnit) :=
  (allUnits s).foldl occStep []

def occupantAt (s : ClientState) (c : HexCoords) : Option OwnedUnit :=
  alookup (occupiedMap s) c

/-- The `blocked` set handed to `findPath` by `handleMoveTo`: every occupied
tile whose occupant is not the moving unit. -/
def moveBlocked (s : ClientState) (moverId : Nat) : List HexCoords :=
  (occupiedMap s).filterMap
    (fun p => if p.2.uniqueId ≠ moverId then some p.1 else none)

def alivePlayerUnits (s : ClientState) : List OwnedUnit :=
  s.playerUnits.filter (fun u => decide (0 < u.currentHp))

def aliveEnemyUnits (s : ClientState) : List OwnedUnit :=
  s.enemyUnits.filter (fun u => decide (0 < u.currentHp))

/-- `damageScore.player`: damage dealt by the player, summed over enemy
units as `max 0 (maxHp - currentHp)`. -/
def damageScorePlayer (s : ClientState) : Int :=
  (s.enemyUnits.map (fun u => max 0 (u.maxHp - u.currentHp))).sum

/-- `damageScore.enemy`: damage dealt by the enemy side. -/
def damageScoreEnemy (s : ClientState) : Int :=
  (s.playerUnits.map (fun u => max 0 (u.maxHp - u.currentHp))).sum

/-- `finishGame`: record the result once (a recorded winner is never
overwritten), move to the finished phase and clear the interaction state. -/
def finishGame (s : ClientState) (w : Winner) (reason : String) : ClientState :=
  if s.gameResult.winner.isSome then s
  else
    { s with gameResult := ⟨some w, reason⟩, phase := .finished,
             selectedUnitId := none, pathCoords := [], error := none }

/-- The comparison inside `resolveByPoints`. -/
def pointsWinner (s : ClientState) : Winner :=
  if damageScorePlayer s = damageScoreEnemy s then .draw
  else if damageScorePlayer s > damageScoreEnemy s then .player
  else .enemy

/-- `resolveByPoints`: finish with the higher cumulative damage winning. -/
def resolveByPoints (s : ClientState) (reason : String) : ClientState :=
  finishGame s (pointsWinner s)
    (reason ++ " (points " ++ toString (damageScorePlayer s) ++ ":" ++
      toString (damageScoreEnemy s) ++ ")")

/-- The automatic victory-condition effect of the board page: in elimination
mode a wiped side loses (both wiped: draw); in every other mode a wipe-out
of either side resolves the game by points. -/
def checkAutoVictory (s : ClientState) : ClientState :=
  if s.phase ≠ .battle ∨ s.gameResult.winner.isSome then s
  else
    if s.victoryMode = .elimination then
      if (aliveEnemyUnits s).length = 0 ∧ (alivePlayerUnits s).length = 0 then
        finishGame s .draw "Both armies were destroyed"
      else if (aliveEnemyUnits s).length = 0 then
        finishGame s .player "All enemies defeated"
      else if (alivePlayerUnits s).length = 0 then
        finishGame s .enemy "Your units were destroyed"
      else s
    else
      if (aliveEnemyUnits s).length = 0 ∨ (alivePlayerUnits s).length = 0 then
        resolveByPoints s
          (if (aliveEnemyUnits s).length = 0 ∧ (alivePlayerUnits s).length = 0 then
            "Both armies were destroyed"
          else if (aliveEnemyUnits s).length = 0 then "No enemy units remain"
          else "No player units remain")
      else s

/-- The turn-limit effect: only in `turns` mode, once the round number
exceeds the limit, resolve by points. -/
def checkTurnLimit (s : ClientState) : ClientState :=
  if s.phase ≠ .battle ∨ s.victoryMode ≠ .turns ∨ s.gameResult.winner.isSome then s
  else if s.turnLimit < s.roundNumber then resolveByPoints s "Turn limit reached"
  else s

/-- The manual end-game button (enabled only in battle with no winner). -/
def manualFinish (s : ClientState) : ClientState :=
  if s.phase ≠ .battle ∨ s.gameResult.winner.isSome then s
  else resolveByPoints s "Manual finish"

def setUnitPos (uid : Nat) (c : HexCoords) (units : List OwnedUnit) :
    List OwnedUnit :=
  units.map (fun u => if u.uniqueId = uid then { u with position := some c } else u)

/-- Modelled from the spec: the backend (not part of this repository)
applies a MOVE action by setting the acted unit's position to the payload
coordinate, and the client adopts the returned snapshot. -/
def applyMoveBackend (s : ClientState) (uid : Nat) (c : HexCoords) : ClientState :=
  { s with playerUnits := setUnitPos uid c s.playerUnits,
           enemyUnits := setUnitPos uid c s.enemyUnits }

def applyDamageUnits (uid : Nat) (dmg : Int) (units : List OwnedUnit) :
    List OwnedUnit :=
  units.map (fun u =>
    if u.uniqueId = uid then { u with currentHp := u.currentHp - dmg } else u)

/-- Modelled from the spec: the backend (not part of this repository)
applies an ATTACK action by subtracting the client-computed `damageApplied`
from the target's hit points. -/
def applyAttackBackend (s : ClientState) (uid : Nat) (dmg : Int) : ClientState :=
  { s with playerUnits := applyDamageUnits uid dmg s.playerUnits,
           enemyUnits := applyDamageUnits uid dmg s.enemyUnits }

/-- `handleMoveTo`: the guards, pathfinding call, destination checks and
state updates of a player's move to a clicked tile. -/
def handleMoveTo (s : ClientState) (q r : Int) : ClientState :=
  if s.phase ≠ .battle ∨ s.gameResult.winner.isSome then s
  else
    match selectedUnit s with
    | none => s
    | some sel =>
      match sel.position with
      | none => s
      | some startPos =>
        if s.activeSide ≠ .player ∨ sel.owner ≠ .player ∨ sel.currentHp ≤ 0 then s
        else if sel.uniqueId ∈ s.movedPlayer then
          { s with error := some "This unit already moved this turn." }
        else
          match findPath s.board startPos ⟨q, r⟩ (moveBlocked s sel.uniqueId)
              sel.speed with
          | none => { s with error := some "No reachable path within movement points." }
          | some pr =>
            match pr.path.getLast? with
            | none =>
                { s with error := some "No reachable path within movement points." }
            | some destination =>
              if destination = startPos ∧ ¬ (q = startPos.q ∧ r = startPos.r) then
                { s with error := some "No reachable path within movement points.",
                         pathCoords := [] }
              else
                match occupantAt s destination with
                | some occ =>
                    if occ.uniqueId ≠ sel.uniqueId then
                      { s with error := some "Destination is occupied." }
                    else
                      { applyMoveBackend
                          { s with error := none, pathCoords := pr.path }
                          sel.uniqueId destination with
                        movedPlayer := s.movedPlayer ++ [sel.uniqueId] }
                | none =>
                    { applyMoveBackend
                        { s with error := none, pathCoords := pr.path }
                        sel.uniqueId destination with
                      movedPlayer := s.movedPlayer ++ [sel.uniqueId] }

/-- `const dist = distance(selectedUnit.position, target.position ?? {q:0,r:0})`. -/
def attackDistance (selPos : HexCoords) (target : OwnedUnit) : Nat :=
  manhattan selPos (target.position.getD ⟨0, 0⟩)

/-- The melee/ranged selection: ranged when the distance exceeds 1 and the
unit has a positive ranged attack, melee otherwise. -/
def selectedAttack (sel : OwnedUnit) (dist : Nat) : Int :=
  if 1 < dist ∧ 0 < sel.rangedAttack then sel.rangedAttack else sel.meleeAttack

/-- `handleAttack`: the guards, range check, melee/ranged selection, damage
clamping and state updates of an attack on a clicked unit. -/
def handleAttack (s : ClientState) (targetId : Nat) : ClientState :=
  match findUnit s targetId with
  | none => s
  | some target =>
    if s.phase ≠ .battle ∨ s.gameResult.winner.isSome then s
    else
      match selectedUnit s with
      | none => s
      | some sel =>
        match sel.position with
        | none => s
        | some selPos =>
          if s.activeSide ≠ .player ∨ sel.owner ≠ .player ∨ sel.currentHp ≤ 0 then s
          else if target.owner = sel.owner then
            { s with selectedUnitId := some target.uniqueId }
          else if target.currentHp ≤ 0 then s
          else if sel.uniqueId ∈ s.actedPlayer then
            { s with error := some "This unit already acted this turn." }
          else if sel.attackRange < attackDistance selPos target then
            { s with error := some "Target out of range." }
          else if selectedAttack sel (attackDistance selPos target) ≤ 0 then
            { s with error := some "This unit cannot deal damage." }
          else
            { applyAttackBackend { s with error := none, pathCoords := [] }
                target.uniqueId
                (min (selectedAttack sel (attackDistance selPos target))
                  target.currentHp) with
              actedPlayer := s.actedPlayer ++ [sel.uniqueId] }

/-- `endTurnInternal`: rejected once a winner is recorded or when it is not
the local player's turn; otherwise END_TURN is applied by the backend and
the client clears the per-turn sets and adopts the snapshot's turn number
and active side (the snapshot values are the two parameters). -/
def endTurn (s : ClientState) (newTurnNumber : Nat) (nextIsPlayer : Bool) :
    ClientState :=
  if s.gameResult.winner.isSome ∨ s.activeSide ≠ .player then s
  else
    { s with selectedUnitId := none, pathCoords := [], error := none,
             actedPlayer := [], actedEnemy := [], movedPlayer := [],
             movedEnemy := [],
             roundNumber := newTurnNumber,
             activeSide := if nextIsPlayer then .player else .enemy }

/-- `selectUnit`: clicking a friendly living unit during one's own battle
turn selects it and clears the path preview. -/
def selectUnitClick (s : ClientState) (uid : Nat) : ClientState :=
  match findUnit s uid with
  | none => s
  | some u =>
    if s.phase ≠ .battle ∨ s.gameResult.winner.isSome then s
    else if s.activeSide ≠ .player ∨ u.owner ≠ .player ∨ u.currentHp ≤ 0 then s
    else { s with selectedUnitId := some u.uniqueId, pathCoords := [] }

def qValues (b : Board) : List Int :=
  b.tiles.map (fun t => t.coords.q)

def minQOf (b : Board) : Int :=
  match qValues b with
  | [] => 0
  | x :: xs => xs.foldl min x

def maxQOf (b : Board) : Int :=
  match qValues b with
  | [] => 0
  | x :: xs => xs.foldl max x

/-- `mirroredQ`: reflect a column across the board's extent (identity when
the column list is empty, as in the source). -/
def mirroredQ (b : Board) (q : Int) : Int :=
  if b.tiles = [] then q else maxQOf b - (q - minQOf b)

/-- The first three board columns, where the player may deploy. -/
def allowedDeployColumns (b : Board) : List Int :=
  if b.tiles = [] then [] else [minQOf b, minQOf b + 1, minQOf b + 2]

/-- `canDropOnTile`: the tile exists, is passable, and is unoccupied. -/
def canDropOnTile (s : ClientState) (q r : Int) : Bool :=
  match tileAt s.board ⟨q, r⟩ with
  | none => false
  | some t => t.passable && (occupantAt s ⟨q, r⟩).isNone

/-- `placeUnit` of the deployment phase. -/
def placeUnit (s : ClientState) (uid : Nat) (c : HexCoords) : ClientState :=
  if s.phase ≠ .deployment then s
  else
    match s.playerUnits.find? (fun u => decide (u.uniqueId = uid)) with
    | none => s
    | some _ =>
      if c.q ∉ allowedDeployColumns s.board then
        { s with error := some "You can deploy player units only in the first 3 columns." }
      else if ¬ canDropOnTile s c.q c.r then
        { s with error := some "Tile is occupied or impassable." }
      else
        applyMoveBackend { s with error := none } uid c

/-- The reflected, clamped placement of one mirrored unit: the source's row,
and the source's column reflected across `minQ..maxQ` then clamped. -/
def mirrorCoord (minQ maxQ : Int) (pos : HexCoords) : HexCoords :=
  ⟨max minQ (min maxQ (maxQ - (pos.q - minQ))), pos.r⟩

/-- The per-index mirroring of `mirrorEnemyDeployment`: enemy unit `i` takes
leading unit `i`'s row and reflected, clamped column; an enemy unit with no
matching deployed source is kept unchanged. -/
def mirrorUnits (minQ maxQ : Int) :
    List OwnedUnit → List OwnedUnit → List OwnedUnit
  | _, [] => []
  | [], es => es
  | p :: ps, e :: es =>
      (match p.position with
       | none => e
       | some pos => { e with position := some (mirrorCoord minQ maxQ pos) })
        :: mirrorUnits minQ maxQ ps es

/-- `mirrorEnemyDeployment` (the deployment-phase continue button): requires
every player unit placed, mirrors the enemy army and enters battle.  An
empty board is left unchanged (the source would compute NaN coordinates
there). -/
def mirrorEnemyDeployment (s : ClientState) : ClientState :=
  if s.phase ≠ .deployment then s
  else if s.board.tiles = [] then s
  else if ¬ s.playerUnits.all (fun u => u.position.isSome) then
    { s with error := some "Place all player units before continuing." }
  else
    { s with
      enemyUnits :=
        mirrorUnits (minQOf s.board) (maxQOf s.board) s.playerUnits s.enemyUnits,
      roundNumber := 1,
      gameResult := ⟨none, ""⟩,
      phase := .battle,
      activeSide := .player,
      actedPlayer := [], actedEnemy := [], movedPlayer := [], movedEnemy := [],
      selectedUnitId := none,
      pathCoords := [] }

/-- The external action protocol (§6): MOVE, ATTACK, END_TURN. -/
inductive GameAction
  | move (q r : Int)
  | attack (targetId : Nat)
  | endTurnAction (newTurnNumber : Nat) (nextIsPlayer : Bool)

def applyAction (s : ClientState) : GameAction → ClientState
  | .move q r => handleMoveTo s q r
  | .attack tid => handleAttack s tid
  | .endTurnAction n p => endTurn s n p

/-- Every transition the board page can perform on the modelled state. -/
inductive ClientStep : ClientState → ClientState → Prop
  | action (s : ClientState) (a : GameAction) : ClientStep s (applyAction s a)
  | select (s : ClientState) (uid : Nat) : ClientStep s (selectUnitClick s uid)
  | place (s : ClientState) (uid : Nat) (c : HexCoords) :
      ClientStep s (placeUnit s uid c)
  | mirror (s : ClientState) : ClientStep s (mirrorEnemyDeployment s)
  | autoVictory (s : ClientState) : ClientStep s (checkAutoVictory s)
  | turnLimitCheck (s : ClientState) : ClientStep s (checkTurnLimit s)
  | finishManually (s : ClientState) : ClientStep s (manualFinish s)

/-! ### C9: mirrored enemy deployment -/

theorem mirrorUnits_get (minQ maxQ : Int) :
    ∀ (ps es : List OwnedUnit) (i : Nat) (src : OwnedUnit) (pos : HexCoords),
    ps[i]? = some src → src.position = some pos → i < es.length →
    ∃ e0, es[i]? = some e0 ∧
      (mirrorUnits minQ maxQ ps es)[i]? =
        some { e0 with position := some (mirrorCoord minQ maxQ pos) } := by
  intro ps
  induction ps with
  | nil =>
      intro es i src pos hsrc
      simp at hsrc
  | cons p ps ih =>
      intro es i src pos hsrc hpos hlen
      cases es with
      | nil => simp at hlen
      | cons e es =>
          cases i with
          | zero =>
              simp only [List.getElem?_cons_zero, Option.some.injEq] at hsrc
              subst hsrc
              refine ⟨e, by simp, ?_⟩
              simp only [mirrorUnits, hpos, List.getElem?_cons_zero]
          | succ i =>
              simp only [List.getElem?_cons_succ] at hsrc ⊢
              simp only [List.length_cons] at hlen
              obtain ⟨e0, he0, hmem⟩ := ih es i src pos hsrc hpos (by omega)
              exact ⟨e0, he0, by simp only [mirrorUnits, List.getElem?_cons_succ]; exact hmem⟩

/-- Concrete scenario state for C9: a 7-column board (columns 0..6) with the
single leading-side unit deployed at `(1,3)`. -/
def c9state : ClientState :=
  { phase := .deployment, activeSide := .player, victoryMode := .points,
    turnLimit := 6, roundNumber := 1, gameResult := ⟨none, ""⟩,
    playerUnits := [⟨1, .player, some ⟨1, 3⟩, 3, 3, 2, 0, 1, 2⟩],
    enemyUnits := [⟨2, .enemy, none, 4, 4, 2, 0, 1, 2⟩],
    selectedUnitId := none, actedPlayer := [], actedEnemy := [],
    movedPlayer := [], movedEnemy := [], pathCoords := [], error := none,
    board := ⟨[⟨⟨0, 0⟩, true, 1⟩, ⟨⟨1, 0⟩, true, 1⟩, ⟨⟨2, 0⟩, true, 1⟩,
               ⟨⟨3, 0⟩, true, 1⟩, ⟨⟨4, 0⟩, true, 1⟩, ⟨⟨5, 0⟩, true, 1⟩,
               ⟨⟨6, 0⟩, true, 1⟩]⟩ }

/-- C9: when deployment completes, the trailing side's unit at index `i` is
placed at the leading unit `i`'s row and at the column mirrored across the
board's extent (`maxQ - (q - minQ)`), clamped to the board bounds; in
particular, on a board with columns 0..6 a leading unit at `(1,3)` mirrors
to `(5,3)`. -/
theorem mirror_deployment_spec (s : ClientState)
    (hphase : s.phase = .deployment)
    (hne : s.board.tiles ≠ [])
    (hall : s.playerUnits.all (fun u => u.position.isSome))
    (i : Nat) (src : OwnedUnit) (pos : HexCoords)
    (hsrc : s.playerUnits[i]? = some src) (hpos : src.position = some pos)
    (hlen : i < s.enemyUnits.length) :
    (∃ e0, s.enemyUnits[i]? = some e0 ∧
      (mirrorEnemyDeployment s).enemyUnits[i]? =
        some { e0 with position := some (mirrorCoord (minQOf s.board) (maxQOf s.board) pos) }) ∧
    mirrorCoord (minQOf s.board) (maxQOf s.board) pos =
      HexCoords.mk (max (minQOf s.board) (min (maxQOf s.board) (maxQOf s.board - (pos.q - minQOf s.board)))) pos.r ∧
    (mirrorEnemyDeployment s).phase = .battle ∧
    ∃ e1, (mirrorEnemyDeployment c9state).enemyUnits = [e1] ∧
      e1.position = some ⟨5, 3⟩ := by
  have hmirror : mirrorEnemyDeployment s =
      { s with
        enemyUnits :=
          mirrorUnits (minQOf s.board) (maxQOf s.board) s.playerUnits s.enemyUnits,
        roundNumber := 1,
        gameResult := ⟨none, ""⟩,
        phase := .battle,
        activeSide := .player,
        actedPlayer := [], actedEnemy := [], movedPlayer := [], movedEnemy := [],
        selectedUnitId := none,
        pathCoords := [] } := by
    unfold mirrorEnemyDeployment
    rw [if_neg (by rw [hphase]; simp), if_neg (by simpa using hne),
      if_neg (fun hcon => hcon hall)]
  refine ⟨?_, rfl, by rw [hmirror], ?_⟩
  · obtain ⟨e0, he0, hget⟩ :=
      mirrorUnits_get (minQOf s.board) (maxQOf s.board) s.playerUnits s.enemyUnits
        i src pos hsrc hpos hlen
    refine ⟨e0, he0, ?_⟩
    rw [hmirror]
    exact hget
  · exact ⟨⟨2, .enemy, some ⟨5, 3⟩, 4, 4, 2, 0, 1, 2⟩, by decide, by decide⟩

theorem mirror_deployment_spec_witness :
    (mirrorEnemyDeployment c9state).phase = .battle ∧
    ∃ e0, c9state.enemyUnits[0]? = some e0 ∧
      (mirrorEnemyDeployment c9state).enemyUnits[0]? =
        some { e0 with position := some (mirrorCoord (minQOf c9state.board) (maxQOf c9state.board) ⟨1, 3⟩) } := by
  have h := mirror_deployment_spec c9state (by decide) (by decide) (by decide)
    0 ⟨1, .player, some ⟨1, 3⟩, 3, 3, 2, 0, 1, 2⟩ ⟨1, 3⟩ (by decide) (by decide)
    (by decide)
  exact ⟨h.2.2.1, h.1⟩

/-! ### C4: attack range check, damage selection and clamping -/

theorem find?_map_id_preserve (f : OwnedUnit → OwnedUnit)
    (hf : ∀ u, (f u).uniqueId = u.uniqueId) (l : List OwnedUnit) (uid : Nat) :
    (l.map f).find? (fun u => decide (u.uniqueId = uid)) =
      (l.find? (fun u => decide (u.uniqueId = uid))).map f := by
  induction l with
  | nil => rfl
  | cons a l ih =>
      by_cases ha : a.uniqueId = uid
      · have ha' : (f a).uniqueId = uid := by rw [hf]; exact ha
        simp [List.find?, ha, ha']
      · have ha' : ¬ (f a).uniqueId = uid := by rw [hf]; exact ha
        simp [List.find?, ha, ha', ih]

theorem findUnit_map (s s' : ClientState) (f : OwnedUnit → OwnedUnit)
    (hf : ∀ u, (f u).uniqueId = u.uniqueId)
    (hp : s'.playerUnits = s.playerUnits.map f)
    (he : s'.enemyUnits = s.enemyUnits.map f) (uid : Nat) :
    findUnit s' uid = (findUnit s uid).map f := by
  unfold findUnit allUnits
  rw [hp, he, ← List.map_append]
  exact find?_map_id_preserve f hf _ uid

/-- C4: an attack on a target strictly beyond the attacker's range is
rejected with only an error message; an accepted attack uses the selected
attack value (ranged when distance exceeds 1 and the ranged stat is
positive, melee otherwise), rejects a non-positive selection, and applies
exactly `min selectedAttack target.currentHp` damage, leaving the target's
hit points non-negative. -/
theorem attack_range_and_clamp (s : ClientState) (targetId : Nat)
    (sel target : OwnedUnit) (selPos : HexCoords)
    (h1 : findUnit s targetId = some target)
    (h2 : selectedUnit s = some sel)
    (h3 : s.phase = .battle) (h4 : s.gameResult.winner = none)
    (h5 : sel.position = some selPos)
    (h6 : s.activeSide = .player) (h7 : sel.owner = .player)
    (h8 : 0 < sel.currentHp)
    (h9 : target.owner ≠ sel.owner) (h10 : 0 < target.currentHp)
    (h11 : sel.uniqueId ∉ s.actedPlayer) :
    (sel.attackRange < attackDistance selPos target →
      handleAttack s targetId = { s with error := some "Target out of range." }) ∧
    (attackDistance selPos target ≤ sel.attackRange →
      selectedAttack sel (attackDistance selPos target) ≤ 0 →
      handleAttack s targetId = { s with error := some "This unit cannot deal damage." }) ∧
    (attackDistance selPos target ≤ sel.attackRange →
      0 < selectedAttack sel (attackDistance selPos target) →
      ∃ target', findUnit (handleAttack s targetId) targetId = some target' ∧
        target'.currentHp = target.currentHp -
          min (selectedAttack sel (attackDistance selPos target)) target.currentHp ∧
        0 ≤ target'.currentHp) := by
  have hna : ¬ sel.currentHp ≤ 0 := by omega
  have hnt : ¬ target.currentHp ≤ 0 := by omega
  have htid : target.uniqueId = targetId := by
    have := List.find?_some h1
    simpa using this
  have h9p : target.owner ≠ Side.player := h7 ▸ h9
  refine ⟨?_, ?_, ?_⟩
  · intro hr
    simp [handleAttack, h1, h2, h5, h3, h4, h6, h7, hna, h9, h9p, hnt, h11, hr]
  · intro hr hz
    have hnr : ¬ sel.attackRange < attackDistance selPos target := by omega
    simp [handleAttack, h1, h2, h5, h3, h4, h6, h7, hna, h9, h9p, hnt, h11, hnr, hz]
  · intro hr hz
    have hnr : ¬ sel.attackRange < attackDistance selPos target := by omega
    have hnz : ¬ selectedAttack sel (attackDistance selPos target) ≤ 0 := by omega
    have hred : handleAttack s targetId =
        { applyAttackBackend { s with error := none, pathCoords := [] }
            target.uniqueId
            (min (selectedAttack sel (attackDistance selPos target))
              target.currentHp) with
          actedPlayer := s.actedPlayer ++ [sel.uniqueId] } := by
      simp [handleAttack, h1, h2, h5, h3, h4, h6, h7, hna, h9, h9p, hnt, h11, hnr, hnz]
    set dmg := min (selectedAttack sel (attackDistance selPos target))
      target.currentHp with hdmg
    have hfind : findUnit (handleAttack s targetId) targetId =
        (findUnit s targetId).map
          (fun u => if u.uniqueId = target.uniqueId then
            { u with currentHp := u.currentHp - dmg } else u) := by
      rw [hred]
      refine findUnit_map s _ _ ?_ rfl rfl targetId
      intro u
      by_cases hu : u.uniqueId = target.uniqueId <;> simp [hu]
    rw [h1] at hfind
    have hfind2 : findUnit (handleAttack s targetId) targetId =
        some { target with currentHp := target.currentHp - dmg } := by
      rw [hfind]
      simp
    refine ⟨_, hfind2, ?_, ?_⟩
    · rfl
    · simp only
      have hmin : dmg ≤ target.currentHp := min_le_right _ _
      omega

/-- Concrete state for the C4 witness: a melee unit adjacent to a full-health
enemy. -/
def c4state : ClientState :=
  { phase := .battle, activeSide := .player, victoryMode := .points,
    turnLimit := 6, roundNumber := 1, gameResult := ⟨none, ""⟩,
    playerUnits := [⟨1, .player, some ⟨0, 0⟩, 3, 3, 2, 0, 1, 2⟩],
    enemyUnits := [⟨2, .enemy, some ⟨1, 0⟩, 5, 5, 2, 0, 1, 2⟩],
    selectedUnitId := some 1, actedPlayer := [], actedEnemy := [],
    movedPlayer := [], movedEnemy := [], pathCoords := [], error := none,
    board := rowBoard }

theorem attack_range_and_clamp_witness :
    ∃ target', findUnit (handleAttack c4state 2) 2 = some target' ∧
      target'.currentHp = 5 - min 2 5 ∧ 0 ≤ target'.currentHp := by
  have h := attack_range_and_clamp c4state 2
    ⟨1, .player, some ⟨0, 0⟩, 3, 3, 2, 0, 1, 2⟩
    ⟨2, .enemy, some ⟨1, 0⟩, 5, 5, 2, 0, 1, 2⟩
    ⟨0, 0⟩ (by decide) (by decide) (by decide) (by decide) (by decide)
    (by decide) (by decide) (by decide) (by decide) (by decide) (by decide)
  exact h.2.2 (by decide) (by decide)

/-! ### C5: moves never overlap living units -/

/-- No two living placed units share a tile. -/
def NoOverlap (s : ClientState) : Prop :=
  ∀ u ∈ allUnits s, ∀ v ∈ allUnits s,
    0 < u.currentHp → 0 < v.currentHp → u.position.isSome →
    u.position = v.position → u = v

theorem mem_aupd_weak {κ : Type} [DecidableEq κ] {α : Type}
    {m : List (κ × α)} {k : κ} {v : α} {p : κ × α}
    (h : p ∈ aupd m k v) : p = (k, v) ∨ p ∈ m := by
  induction m with
  | nil => simp [aupd] at h; exact Or.inl h
  | cons q rest ih =>
      by_cases hqk : q.1 = k
      · simp only [aupd, hqk, if_pos] at h
        rcases List.mem_cons.mp h with h | h
        · exact Or.inl h
        · exact Or.inr (List.mem_cons_of_mem _ h)
      · simp only [aupd, hqk, if_neg, not_false_iff] at h
        rcases List.mem_cons.mp h with h | h
        · exact Or.inr (h ▸ List.mem_cons_self q rest)
        · rcases ih h with h | h
          · exact Or.inl h
          · exact Or.inr (List.mem_cons_of_mem _ h)

theorem occStep_some {m : List (HexCoords × OwnedUnit)} {u : OwnedUnit}
    {c : HexCoords} (h : u.position = some c) :
    occStep m u = if 0 < u.currentHp then aupd m c u else m := by
  unfold occStep
  rw [h]

theorem occStep_none {m : List (HexCoords × OwnedUnit)} {u : OwnedUnit}
    (h : u.position = none) : occStep m u = m := by
  unfold occStep
  rw [h]

theorem occFold_mem :
    ∀ (l : List OwnedUnit) (acc : List (HexCoords × OwnedUnit)) (p),
    p ∈ l.foldl occStep acc →
    p ∈ acc ∨ (p.2 ∈ l ∧ p.2.position = some p.1 ∧ 0 < p.2.currentHp) := by
  intro l
  induction l with
  | nil => intro acc p h; exact Or.inl h
  | cons u l ih =>
      intro acc p h
      rcases ih (occStep acc u) p h with h | h
      · cases hpos : u.position with
        | none =>
            rw [occStep_none hpos] at h
            exact Or.inl h
        | some c =>
            rw [occStep_some hpos] at h
            by_cases hhp : 0 < u.currentHp
            · rw [if_pos hhp] at h
              rcases mem_aupd_weak h with h | h
              · right
                rw [h]
                exact ⟨List.mem_cons_self u l, hpos, hhp⟩
              · exact Or.inl h
            · rw [if_neg hhp] at h
              exact Or.inl h
      · exact Or.inr ⟨List.mem_cons_of_mem _ h.1, h.2⟩

theorem occFold_keep (c : HexCoords) (u : OwnedUnit) :
    ∀ (l : List OwnedUnit) (acc : List (HexCoords × OwnedUnit)),
    (∀ w ∈ l, 0 < w.currentHp → w.position = some c → w = u) →
    alookup acc c = some u →
    alookup (l.foldl occStep acc) c = some u := by
  intro l
  induction l with
  | nil => intro acc _ h; exact h
  | cons w l ih =>
      intro acc hall hacc
      refine ih (occStep acc w) (fun x hx => hall x (List.mem_cons_of_mem _ hx)) ?_
      cases hpos : w.position with
      | none =>
          rw [occStep_none hpos]
          exact hacc
      | some c' =>
          rw [occStep_some hpos]
          by_cases hhp : 0 < w.currentHp
          · rw [if_pos hhp]
            by_cases hcc : c' = c
            · subst hcc
              have hw : w = u := hall w (List.mem_cons_self _ _) hhp hpos
              rw [hw, alookup_aupd]
              simp
            · rw [alookup_aupd]
              simp only [hcc, if_neg, not_false_iff]
              exact hacc
          · rw [if_neg hhp]
            exact hacc

theorem occFold_write (c : HexCoords) (u : OwnedUnit) :
    ∀ (l : List OwnedUnit) (acc : List (HexCoords × OwnedUnit)),
    (∀ w ∈ l, 0 < w.currentHp → w.position = some c → w = u) →
    u ∈ l → 0 < u.currentHp → u.position = some c →
    alookup (l.foldl occStep acc) c = some u := by
  intro l
  induction l with
  | nil => intro acc _ hu; simp at hu
  | cons w l ih =>
      intro acc hall hu hhp hpos
      rcases List.mem_cons.mp hu with hu | hu
      · subst hu
        refine occFold_keep c u l (occStep acc u)
          (fun x hx => hall x (List.mem_cons_of_mem _ hx)) ?_
        rw [occStep_some hpos, if_pos hhp, alookup_aupd]
        simp
      · exact ih (occStep acc w) (fun x hx => hall x (List.mem_cons_of_mem _ hx))
          hu hhp hpos

/-- Under the no-overlap invariant, the occupancy lookup of a living unit's
tile returns that unit. -/
theorem occupantAt_eq {s : ClientState} (hno : NoOverlap s) {u : OwnedUnit}
    {c : HexCoords} (hu : u ∈ allUnits s) (hhp : 0 < u.currentHp)
    (hpos : u.position = some c) : occupantAt s c = some u := by
  unfold occupantAt occupiedMap
  refine occFold_write c u (allUnits s) [] ?_ hu hhp hpos
  intro w hw hwhp hwpos
  exact hno w hw u hu hwhp hhp (by rw [hwpos]; rfl) (by rw [hwpos, hpos])

/-- The `blocked` set handed to the pathfinder contains exactly the tiles of
living units other than the mover. -/
theorem moveBlocked_iff (s : ClientState) (hno : NoOverlap s) (mid : Nat)
    (c : HexCoords) :
    c ∈ moveBlocked s mid ↔
      ∃ u ∈ allUnits s, 0 < u.currentHp ∧ u.uniqueId ≠ mid ∧
        u.position = some c := by
  constructor
  · intro h
    obtain ⟨p, hp, hpc⟩ := List.mem_filterMap.mp h
    by_cases hid : p.2.uniqueId ≠ mid
    · rw [if_pos hid] at hpc
      injection hpc with h2
      subst h2
      rcases occFold_mem (allUnits s) [] p hp with h' | h'
      · simp at h'
      · exact ⟨p.2, h'.1, h'.2.2, hid, h'.2.1⟩
    · rw [if_neg hid] at hpc
      cases hpc
  · rintro ⟨u, hu, hhp, hid, hpos⟩
    have hocc : occupantAt s c = some u := occupantAt_eq hno hu hhp hpos
    have hmem : (c, u) ∈ occupiedMap s := alookup_mem hocc
    exact List.mem_filterMap.mpr ⟨(c, u), hmem, by simp [hid]⟩

theorem nodup_ids_inj {l : List OwnedUnit}
    (h : (l.map OwnedUnit.uniqueId).Nodup) :
    ∀ w ∈ l, ∀ w' ∈ l, w.uniqueId = w'.uniqueId → w = w' := by
  induction l with
  | nil => simp
  | cons a l ih =>
      simp only [List.map_cons, List.nodup_cons] at h
      intro w hw w' hw' heq
      rcases List.mem_cons.mp hw with hw | hw <;>
        rcases List.mem_cons.mp hw' with hw' | hw'
      · rw [hw, hw']
      · exfalso
        refine h.1 ?_
        rw [← hw, heq]
        exact List.mem_map.mpr ⟨w', hw', rfl⟩
      · exfalso
        refine h.1 ?_
        rw [← hw', ← heq]
        exact List.mem_map.mpr ⟨w, hw, rfl⟩
      · exact ih h.2 w hw w' hw' heq

theorem setUnitPos_ids (uid : Nat) (c : HexCoords) (l : List OwnedUnit) :
    (setUnitPos uid c l).map OwnedUnit.uniqueId = l.map OwnedUnit.uniqueId := by
  induction l with
  | nil => rfl
  | cons a l ih =>
      by_cases ha : a.uniqueId = uid <;>
        simp [setUnitPos, ha] <;>
        simpa [setUnitPos] using ih

/-- Case analysis of `handleMoveTo`: either the unit lists are untouched
(every rejection path), or the move was committed: the selected unit moved
to a destination whose occupant (if any) was the mover itself. -/
theorem handleMoveTo_units (s : ClientState) (q r : Int) :
    ((handleMoveTo s q r).playerUnits = s.playerUnits ∧
     (handleMoveTo s q r).enemyUnits = s.enemyUnits) ∨
    ∃ sel destination,
      selectedUnit s = some sel ∧
      (occupantAt s destination = none ∨
        ∃ occ, occupantAt s destination = some occ ∧ occ.uniqueId = sel.uniqueId) ∧
      (handleMoveTo s q r).playerUnits = setUnitPos sel.uniqueId destination s.playerUnits ∧
      (handleMoveTo s q r).enemyUnits = setUnitPos sel.uniqueId destination s.enemyUnits := by
  unfold handleMoveTo
  repeat' split
  all_goals try (left; exact ⟨rfl, rfl⟩)
  all_goals
    first
    | (refine Or.inr ?_
       rename_i occ heqocc hne
       push_neg at hne
       exact ⟨_, _, (by assumption), Or.inr ⟨occ, heqocc, hne⟩, rfl, rfl⟩)
    | (refine Or.inr ?_
       rename_i heqocc
       exact ⟨_, _, (by assumption), Or.inl heqocc, rfl, rfl⟩)

theorem handleMoveTo_ids (s : ClientState) (q r : Int) :
    (allUnits (handleMoveTo s q r)).map OwnedUnit.uniqueId =
      (allUnits s).map OwnedUnit.uniqueId := by
  rcases handleMoveTo_units s q r with ⟨hp, he⟩ | ⟨sel, dest, hsel, hocc, hp, he⟩
  · unfold allUnits
    rw [hp, he]
  · unfold allUnits
    rw [hp, he, List.map_append, List.map_append, setUnitPos_ids, setUnitPos_ids]

theorem handleMoveTo_noOverlap (s : ClientState) (q r : Int)
    (hids : ((allUnits s).map OwnedUnit.uniqueId).Nodup)
    (hno : NoOverlap s) : NoOverlap (handleMoveTo s q r) := by
  rcases handleMoveTo_units s q r with ⟨hp, he⟩ | ⟨sel, dest, hsel, hocc, hp, he⟩
  · intro u hu v hv
    unfold allUnits at hu hv
    rw [hp, he] at hu hv
    exact hno u hu v hv
  · have hnodest : ∀ w ∈ allUnits s, 0 < w.currentHp → w.position = some dest →
        w.uniqueId = sel.uniqueId := by
      intro w hw hwhp hwpos
      have hocc' : occupantAt s dest = some w := occupantAt_eq hno hw hwhp hwpos
      rcases hocc with hnone | ⟨occ, hsome, hid⟩
      · rw [hnone] at hocc'
        cases hocc'
      · rw [hsome] at hocc'
        injection hocc' with h2
        rw [← h2]
        exact hid
    have hall : allUnits (handleMoveTo s q r) =
        (allUnits s).map (fun u =>
          if u.uniqueId = sel.uniqueId then { u with position := some dest } else u) := by
      unfold allUnits
      rw [hp, he, List.map_append]
      rfl
    intro u' hu' v' hv' hu'hp hv'hp hu'some heqpos
    rw [hall] at hu' hv'
    obtain ⟨u, hu, hfu⟩ := List.mem_map.mp hu'
    obtain ⟨v, hv, hfv⟩ := List.mem_map.mp hv'
    subst hfu
    subst hfv
    by_cases huid : u.uniqueId = sel.uniqueId <;>
      by_cases hvid : v.uniqueId = sel.uniqueId
    · have : u = v := nodup_ids_inj hids u hu v hv (by rw [huid, hvid])
      rw [this]
    · exfalso
      simp only [huid, if_pos, hvid, if_neg, not_false_iff] at heqpos hv'hp
      apply hvid
      refine hnodest v hv hv'hp ?_
      rw [← heqpos]
    · exfalso
      simp only [huid, if_neg, not_false_iff, hvid, if_pos] at heqpos hu'hp hu'some
      apply huid
      refine hnodest u hu hu'hp ?_
      rw [heqpos]
    · simp only [huid, if_neg, hvid, not_false_iff] at heqpos hu'hp hv'hp hu'some ⊢
      have : u = v := hno u hu v hv hu'hp hv'hp hu'some heqpos
      rw [this]

/-- Concrete state for the C5 witness. -/
def c5state : ClientState :=
  { phase := .battle, activeSide := .player, victoryMode := .points,
    turnLimit := 6, roundNumber := 1, gameResult := ⟨none, ""⟩,
    playerUnits := [⟨1, .player, some ⟨0, 0⟩, 3, 3, 2, 0, 1, 2⟩],
    enemyUnits := [⟨2, .enemy, some ⟨2, 0⟩, 5, 5, 2, 0, 1, 2⟩],
    selectedUnitId := some 1, actedPlayer := [], actedEnemy := [],
    movedPlayer := [], movedEnemy := [], pathCoords := [], error := none,
    board := rowBoard }

/-- C5: every executed move passes exactly the tiles of living units other
than the mover as `blocked`, a committed move's destination holds no other
living unit, and consequently any sequence of moves preserves the invariant
that no two living units share a tile. -/
theorem move_no_overlap (s : ClientState) (q r : Int)
    (hids : ((allUnits s).map OwnedUnit.uniqueId).Nodup)
    (hno : NoOverlap s) :
    NoOverlap (handleMoveTo s q r) ∧
    (∀ mid c, c ∈ moveBlocked s mid ↔
      ∃ u ∈ allUnits s, 0 < u.currentHp ∧ u.uniqueId ≠ mid ∧
        u.position = some c) ∧
    ∀ moves : List (Int × Int),
      NoOverlap (moves.foldl (fun t p => handleMoveTo t p.1 p.2) s) := by
  refine ⟨handleMoveTo_noOverlap s q r hids hno,
    fun mid c => moveBlocked_iff s hno mid c, ?_⟩
  intro moves
  have hfold : ∀ (ms : List (Int × Int)) (t : ClientState),
      ((allUnits t).map OwnedUnit.uniqueId).Nodup → NoOverlap t →
      ((allUnits (ms.foldl (fun t p => handleMoveTo t p.1 p.2) t)).map
        OwnedUnit.uniqueId).Nodup ∧
      NoOverlap (ms.foldl (fun t p => handleMoveTo t p.1 p.2) t) := by
    intro ms
    induction ms with
    | nil => intro t h1 h2; exact ⟨h1, h2⟩
    | cons m ms ih =>
        intro t h1 h2
        exact ih (handleMoveTo t m.1 m.2)
          (by rw [handleMoveTo_ids]; exact h1)
          (handleMoveTo_noOverlap t m.1 m.2 h1 h2)
  exact (hfold moves s hids hno).2

theorem move_no_overlap_witness :
    NoOverlap (handleMoveTo c5state 1 0) ∧
    ((⟨2, 0⟩ : HexCoords) ∈ moveBlocked c5state 1 ↔
      ∃ u ∈ allUnits c5state, 0 < u.currentHp ∧ u.uniqueId ≠ 1 ∧
        u.position = some ⟨2, 0⟩) := by
  have h := move_no_overlap c5state 1 0 (by decide) (by unfold NoOverlap; decide)
  exact ⟨h.1, h.2.1 1 ⟨2, 0⟩⟩

/-! ### C3: a recorded winner is final -/

/-- The winner/phase coupling maintained by every transition: a recorded
winner implies the finished phase. -/
def WinnerFinishedInv (s : ClientState) : Prop :=
  s.gameResult.winner.isSome → s.phase = .finished

theorem handleMoveTo_frame (s : ClientState) (q r : Int) :
    (handleMoveTo s q r).gameResult = s.gameResult ∧
    (handleMoveTo s q r).phase = s.phase := by
  unfold handleMoveTo
  repeat' split
  all_goals exact ⟨rfl, rfl⟩

theorem handleAttack_frame (s : ClientState) (tid : Nat) :
    (handleAttack s tid).gameResult = s.gameResult ∧
    (handleAttack s tid).phase = s.phase := by
  unfold handleAttack
  repeat' split
  all_goals exact ⟨rfl, rfl⟩

theorem endTurn_frame (s : ClientState) (n : Nat) (p : Bool) :
    (endTurn s n p).gameResult = s.gameResult ∧
    (endTurn s n p).phase = s.phase := by
  unfold endTurn
  split
  all_goals exact ⟨rfl, rfl⟩

theorem selectUnitClick_frame (s : ClientState) (uid : Nat) :
    (selectUnitClick s uid).gameResult = s.gameResult ∧
    (selectUnitClick s uid).phase = s.phase := by
  unfold selectUnitClick
  repeat' split
  all_goals exact ⟨rfl, rfl⟩

theorem placeUnit_frame (s : ClientState) (uid : Nat) (c : HexCoords) :
    (placeUnit s uid c).gameResult = s.gameResult ∧
    (placeUnit s uid c).phase = s.phase := by
  unfold placeUnit
  repeat' split
  all_goals exact ⟨rfl, rfl⟩

theorem finishGame_pres {s : ClientState} (w : Winner) (reason : String)
    (h : WinnerFinishedInv s) : WinnerFinishedInv (finishGame s w reason) := by
  unfold finishGame
  split
  · exact h
  · intro _
    rfl

theorem resolveByPoints_pres {s : ClientState} (reason : String)
    (h : WinnerFinishedInv s) : WinnerFinishedInv (resolveByPoints s reason) :=
  finishGame_pres _ _ h

theorem checkAutoVictory_pres {s : ClientState} (h : WinnerFinishedInv s) :
    WinnerFinishedInv (checkAutoVictory s) := by
  unfold checkAutoVictory
  repeat' split
  all_goals first
    | exact h
    | exact finishGame_pres _ _ h

theorem checkTurnLimit_pres {s : ClientState} (h : WinnerFinishedInv s) :
    WinnerFinishedInv (checkTurnLimit s) := by
  unfold checkTurnLimit
  repeat' split
  all_goals first
    | exact h
    | exact finishGame_pres _ _ h

theorem manualFinish_pres {s : ClientState} (h : WinnerFinishedInv s) :
    WinnerFinishedInv (manualFinish s) := by
  unfold manualFinish
  split
  · exact h
  · exact resolveByPoints_pres _ h

theorem mirrorEnemyDeployment_pres {s : ClientState} (h : WinnerFinishedInv s) :
    WinnerFinishedInv (mirrorEnemyDeployment s) := by
  unfold mirrorEnemyDeployment
  repeat' split
  all_goals first
    | exact h
    | (intro habs; simp at habs)

/-- Concrete finished state for the C3 witness. -/
def c3done : ClientState :=
  { phase := .finished, activeSide := .player, victoryMode := .points,
    turnLimit := 6, roundNumber := 3,
    gameResult := ⟨some .player, "Manual finish (points 5:0)"⟩,
    playerUnits := [⟨1, .player, some ⟨0, 0⟩, 3, 3, 2, 0, 1, 2⟩],
    enemyUnits := [⟨2, .enemy, some ⟨2, 0⟩, 0, 5, 2, 0, 1, 2⟩],
    selectedUnitId := none, actedPlayer := [], actedEnemy := [],
    movedPlayer := [], movedEnemy := [], pathCoords := [], error := none,
    board := rowBoard }

/-- C3: once a winner is recorded the game's phase is finished and the state
is frozen: every MOVE / ATTACK / END_TURN application — indeed every board
transition — returns the state unchanged (so no unit's hit points or
position, and not the winner, can change), and every transition preserves
the winner-implies-finished coupling. -/
theorem winner_final (s : ClientState)
    (hw : s.gameResult.winner.isSome)
    (hinv : WinnerFinishedInv s) :
    s.phase = .finished ∧
    (∀ a, applyAction s a = s) ∧
    (∀ s', ClientStep s s' → s' = s) ∧
    (∀ t t', ClientStep t t' → WinnerFinishedInv t → WinnerFinishedInv t') := by
  have hphase : s.phase = .finished := hinv hw
  have hnb : s.phase ≠ PhaseC.battle := by rw [hphase]; simp
  have hnd : s.phase ≠ PhaseC.deployment := by rw [hphase]; simp
  have hmove : ∀ q r, handleMoveTo s q r = s := by
    intro q r
    unfold handleMoveTo
    rw [if_pos (Or.inr hw)]
  have hattack : ∀ tid, handleAttack s tid = s := by
    intro tid
    unfold handleAttack
    cases hf : findUnit s tid with
    | none => rfl
    | some target => simp [hw]
  have hend : ∀ n p, endTurn s n p = s := by
    intro n p
    unfold endTurn
    rw [if_pos (Or.inl hw)]
  have hact : ∀ a, applyAction s a = s := by
    intro a
    cases a with
    | move q r => exact hmove q r
    | attack tid => exact hattack tid
    | endTurnAction n p => exact hend n p
  refine ⟨hphase, hact, ?_, ?_⟩
  · intro s' hstep
    cases hstep with
    | action a => exact hact a
    | select uid =>
        unfold selectUnitClick
        cases hf : findUnit s uid with
        | none => rfl
        | some u => simp [hw]
    | place uid c =>
        unfold placeUnit
        rw [if_pos hnd]
    | mirror =>
        unfold mirrorEnemyDeployment
        rw [if_pos hnd]
    | autoVictory =>
        unfold checkAutoVictory
        rw [if_pos (Or.inr hw)]
    | turnLimitCheck =>
        unfold checkTurnLimit
        rw [if_pos (Or.inr (Or.inr hw))]
    | finishManually =>
        unfold manualFinish
        rw [if_pos (Or.inr hw)]
  · intro t t' hstep hinvt
    cases hstep with
    | action a =>
        cases a with
        | move q r =>
            intro habs
            simp only [applyAction] at habs ⊢
            rw [(handleMoveTo_frame t q r).1] at habs
            rw [(handleMoveTo_frame t q r).2]
            exact hinvt habs
        | attack tid =>
            intro habs
            simp only [applyAction] at habs ⊢
            rw [(handleAttack_frame t tid).1] at habs
            rw [(handleAttack_frame t tid).2]
            exact hinvt habs
        | endTurnAction n p =>
            intro habs
            simp only [applyAction] at habs ⊢
            rw [(endTurn_frame t n p).1] at habs
            rw [(endTurn_frame t n p).2]
            exact hinvt habs
    | select uid =>
        intro habs
        rw [(selectUnitClick_frame t uid).1] at habs
        rw [(selectUnitClick_frame t uid).2]
        exact hinvt habs
    | place uid c =>
        intro habs
        rw [(placeUnit_frame t uid c).1] at habs
        rw [(placeUnit_frame t uid c).2]
        exact hinvt habs
    | mirror => exact mirrorEnemyDeployment_pres hinvt
    | autoVictory => exact checkAutoVictory_pres hinvt
    | turnLimitCheck => exact checkTurnLimit_pres hinvt
    | finishManually => exact manualFinish_pres hinvt

theorem winner_final_witness :
    c3done.phase = .finished ∧
    applyAction c3done (.move 1 0) = c3done ∧
    applyAction c3done (.attack 1) = c3done ∧
    applyAction c3done (.endTurnAction 4 false) = c3done := by
  have h := winner_final c3done (by decide) (by intro _; rfl)
  exact ⟨h.1, h.2.1 (.move 1 0), h.2.1 (.attack 1), h.2.1 (.endTurnAction 4 false)⟩

/-! ### C1: points-mode resolution -/

/-- A points-mode battle state in which the enemy side has just been wiped
out: one living player unit (3/3 hp) and one dead enemy unit (0/5 hp), no
winner recorded yet. -/
def c1ex : ClientState :=
  { phase := .battle, activeSide := .player, victoryMode := .points,
    turnLimit := 6, roundNumber := 2,
    gameResult := ⟨none, ""⟩,
    playerUnits := [⟨1, .player, some ⟨0, 0⟩, 3, 3, 2, 0, 1, 2⟩],
    enemyUnits := [⟨2, .enemy, some ⟨2, 0⟩, 0, 5, 2, 0, 1, 2⟩],
    selectedUnitId := none, actedPlayer := [], actedEnemy := [],
    movedPlayer := [], movedEnemy := [], pathCoords := [], error := none,
    board := rowBoard }

/-- C1 counterexample: in points mode the game DOES end automatically from
unit counts — in `c1ex` (battle phase, points mode, no winner, enemy side
wiped) the automatic victory-condition effect records a winner by itself,
with no external finish request. -/
theorem points_mode_autoend_counterexample :
    c1ex.victoryMode = .points ∧ c1ex.phase = .battle ∧
    c1ex.gameResult.winner = none ∧
    (checkAutoVictory c1ex).gameResult.winner = some .player := by
  refine ⟨rfl, rfl, rfl, ?_⟩
  decide

/-- C1 (amended): in points victory mode the turn-limit check never fires
and no winner is recorded automatically while BOTH sides still have living
units; but a wipe-out of either side resolves the game automatically by
points, exactly as the explicit manual finish does, and the points
resolution awards the win to the side with the higher cumulative damage
dealt (sum over opposing units of `max 0 (maxHp - currentHp)`), with equal
scores yielding a draw. -/
theorem points_mode_resolution (s : ClientState)
    (hvm : s.victoryMode = .points) :
    (checkTurnLimit s = s) ∧
    ((alivePlayerUnits s).length ≠ 0 → (aliveEnemyUnits s).length ≠ 0 →
      checkAutoVictory s = s) ∧
    (s.phase = .battle → s.gameResult.winner = none →
      ((aliveEnemyUnits s).length = 0 ∨ (alivePlayerUnits s).length = 0) →
      (checkAutoVictory s).gameResult.winner = some (pointsWinner s)) ∧
    (s.phase = .battle → s.gameResult.winner = none →
      (manualFinish s).gameResult.winner = some (pointsWinner s)) ∧
    (damageScorePlayer s = damageScoreEnemy s → pointsWinner s = .draw) ∧
    (damageScorePlayer s > damageScoreEnemy s → pointsWinner s = .player) ∧
    (damageScorePlayer s < damageScoreEnemy s → pointsWinner s = .enemy) := by
  refine ⟨?_, ?_, ?_, ?_, ?_, ?_, ?_⟩
  · unfold checkTurnLimit
    rw [if_pos (Or.inr (Or.inl (by rw [hvm]; decide)))]
  · intro ha hb
    unfold checkAutoVictory
    simp only [hvm]
    split
    · rfl
    · simp [ha, hb]
  · intro hph hwn hwipe
    unfold checkAutoVictory resolveByPoints finishGame
    rw [if_neg (by rw [hph, hwn]; simp)]
    rw [hvm]
    rw [if_neg (by decide)]
    rw [if_pos hwipe]
    rw [if_neg (by rw [hwn]; simp)]
  · intro hph hwn
    unfold manualFinish resolveByPoints finishGame
    rw [if_neg (by rw [hph, hwn]; simp)]
    rw [if_neg (by rw [hwn]; simp)]
  · intro h
    unfold pointsWinner
    rw [if_pos h]
  · intro h
    unfold pointsWinner
    rw [if_neg (by omega), if_pos h]
  · intro h
    unfold pointsWinner
    rw [if_neg (by omega), if_neg (by omega)]

theorem points_mode_resolution_witness :
    (checkAutoVictory c1ex).gameResult.winner = some (pointsWinner c1ex) ∧
    checkTurnLimit c1ex = c1ex ∧
    pointsWinner c1ex = .player := by
  have h := points_mode_resolution c1ex rfl
  exact ⟨h.2.2.1 rfl rfl (Or.inl (by decide)), h.1,
    h.2.2.2.2.2.1 (by decide)⟩

end BoardWar
